import Mathlib

/-!
# CosmicBeats-Simulator CDN core: shallow embedding and verification

This file embeds, in Lean 4, the CDN core of the CosmicBeats simulator:

* `src/src/nodes/topology.py` — the shared replica directory
  (`global_cache`), the ISL graph, the memoized BFS hop-distance
  (`get_ISL_dist`), and `get_shortest_replica`;
* `src/src/models/models_cdn_provider/modelcdnprovider.py` — the
  per-satellite CDN provider: the LRU cache (a Python `OrderedDict`),
  the `check_local_cache_only` request handler and its per-batch
  counters and sanity assertions, and the `call_APIs` dispatch;
* `src/src/nodes/traffic_scheduler_utils/utils.py` and
  `src/src/nodes/trafficscheduler.py` — the field-of-view filter
  (`get_view_up`), the largest-elevation scheduler
  (`schduleLargestElevation`) and the requester dispatch.

Conventions of the embedding:

* Node IDs are `Nat`.  The Python source stores graph keys and queue
  entries as decimal strings and converts with `int(...)`/`str(...)`;
  on canonical decimal representations these conversions are inverse
  bijections, so both sides are embedded as the single type `Nat`.
* Content IDs are `String` (opaque identifiers, exact equality).
* Python dicts (`global_cache`, `__isl_dist`, the per-source BFS
  distance dicts, the `OrderedDict` cache) are embedded as
  insertion-ordered association lists with first-key lookup, which is
  observationally equivalent for dicts whose keys are unique.
* Python exceptions (`KeyError` from a failed dict lookup,
  `ValueError` from `list.remove` on an absent element, `TypeError`
  from unpacking a non-iterable, `AssertionError`) are embedded as an
  error value carried next to the state reached at the raise point —
  CPython mutates objects in place, so mutations made before the raise
  persist.
* The BFS while-loop is embedded with explicit fuel; the top-level
  entry point supplies fuel larger than the number of enqueue
  operations any run can perform (one per node name, bounded by the
  adjacency size of the graph), so fuel exhaustion is unreachable on
  the runs the theorems speak about (all of which are conditioned on,
  or evaluate to, non-fuel outcomes).
-/

namespace CosmicBeats

/-- Content identifier: an opaque string, compared by exact equality
(spec §3 "ContentID"). -/
abbrev ContentID := String

/-- Python exception values that the embedded code can raise. -/
inductive PyErr where
  /-- `KeyError`: failed dict lookup / `OrderedDict.popitem` on empty. -/
  | keyError
  /-- `TypeError`: e.g. unpacking assignment from a non-iterable. -/
  | typeError
  /-- `ValueError`: `list.remove(x)` with `x` absent. -/
  | valueError
  /-- artifact of the fuelled loop embedding; never reached with the
  fuel supplied by the entry points used in the theorems. -/
  | fuelExhausted
  /-- a failed `assert`. -/
  | assertionError
deriving DecidableEq, Repr

/-- First-match lookup in an association list: the observational
content of a Python dict read `m[k]` (`none` embeds `KeyError`). -/
def lookupL {α β : Type} [DecidableEq α] : List (α × β) → α → Option β
  | [], _ => none
  | p :: rest, k => if p.1 = k then some p.2 else lookupL rest k

/-- Python dict write `m[k] = v`: overwrite the value in place if the
key exists (keeping its position), else append the new key at the end
(insertion order). -/
def setL {α β : Type} [DecidableEq α] : List (α × β) → α → β → List (α × β)
  | [], k, v => [(k, v)]
  | p :: rest, k, v => if p.1 = k then (k, v) :: rest else p :: setL rest k v

/-! ## ISL graph and BFS (`topology.py`) -/

/-- The ISL adjacency (`Topology.__isl_graph`): node → neighbor list,
as loaded from the ISL-topology JSON file. -/
abbrev Graph := List (Nat × List Nat)

/-- Per-source BFS distance dict (`self.__isl_dist[nodeFrom]`). -/
abbrev DMap := List (Nat × Nat)

/-- The distance memo (`Topology.__isl_dist`): source → distance dict. -/
abbrev Memo := List (Nat × DMap)

/-- Adjacency lookup `self.__isl_graph[current_node]`; `none` embeds
the `KeyError` raised when the node is not a key of the ISL file. -/
def lookupG (g : Graph) (n : Nat) : Option (List Nat) := lookupL g n

/-- Neighbor list of `n`, with no out-edges for nodes that are not
keys of the graph (used only in specifications/invariants; the code
itself raises `KeyError` there, see `lookupG`). -/
def adj (g : Graph) (n : Nat) : List Nat := (lookupG g n).getD []

/-- Inner `for neighbor in self.__isl_graph[current_node]` loop of the
BFS in `get_ISL_dist` (topology.py lines 127-130): each neighbor not
yet visited is added to the visited set and appended to the queue with
distance `d + 1`. -/
def enqueueNeighbors (d : Nat) : List Nat → List Nat → List (Nat × Nat) →
    List Nat × List (Nat × Nat)
  | [], vis, q => (vis, q)
  | nb :: nbs, vis, q =>
    if nb ∈ vis then enqueueNeighbors d nbs vis q
    else enqueueNeighbors d nbs (nb :: vis) (q ++ [(nb, d + 1)])

/-- The BFS `while queue:` loop of `get_ISL_dist` (topology.py lines
121-130), with explicit fuel.  Each iteration pops the queue head
`(n, d)`, records `dist[n] = d`, then looks the node up in the
adjacency (a missing key raises `KeyError`, after the `dist` write)
and enqueues its unvisited neighbors.  Returns the distance dict as
written so far together with the exception, if any, that ended the
loop. -/
def bfsLoop (g : Graph) : Nat → List (Nat × Nat) → List Nat → DMap →
    DMap × Option PyErr
  | _, [], _, dist => (dist, none)
  | 0, _ :: _, _, dist => (dist, some .fuelExhausted)
  | fuel + 1, (n, d) :: rest, vis, dist =>
    let dist' := setL dist n d
    match lookupG g n with
    | none => (dist', some .keyError)
    | some nbs =>
      let vq := enqueueNeighbors d nbs vis rest
      bfsLoop g fuel vq.2 vq.1 dist'

/-- Fuel bound for `bfsLoop`: every node is enqueued (hence popped) at
most once, and the enqueued nodes are the start node plus nodes drawn
from adjacency lists, so the number of iterations is at most
`1 + Σ |adj|`; one extra unit gives slack. -/
def bfsFuel (g : Graph) : Nat := (g.map (fun p => p.2.length)).sum + 2

/-- The fresh-source branch of `get_ISL_dist`: seed the queue with
`(nodeFrom, 0)`, the visited set with `{nodeFrom}`, run the BFS. -/
def runBfs (g : Graph) (s : Nat) : DMap × Option PyErr :=
  bfsLoop g (bfsFuel g) [(s, 0)] [s] []

/-- `Topology.get_ISL_dist(nodeFrom, nodeTo)` (topology.py lines
110-131).  If the source is memoized, answer from the memo (a missing
target raises `KeyError`).  Otherwise run a BFS from the source; the
distance dict is stored in the memo even when the BFS itself raises
(CPython mutates `self.__isl_dist[nodeFrom]` in place), then the
target is looked up (`KeyError` when unreachable). -/
def get_ISL_dist (g : Graph) (memo : Memo) (nodeFrom nodeTo : Nat) :
    Memo × Except PyErr Nat :=
  match lookupL memo nodeFrom with
  | some dm =>
    (memo, match lookupL dm nodeTo with
      | some d => .ok d
      | none => .error .keyError)
  | none =>
    let br := runBfs g nodeFrom
    let memo' := setL memo nodeFrom br.1
    match br.2 with
    | some e => (memo', .error e)
    | none =>
      (memo', match lookupL br.1 nodeTo with
        | some d => .ok d
        | none => .error .keyError)

/-- The `for remote_replica in self.__global_cache[request]:` loop of
`get_shortest_replica` (topology.py lines 136-139): fold `min` over
the memoized hop distances of the holders, raising `KeyError` when a
holder is missing from the source's distance dict (unreachable). -/
def minHopFold (dm : DMap) (min_hop : Nat) : List Nat → Except PyErr Nat
  | [] => .ok min_hop
  | h :: hs =>
    match lookupL dm h with
    | none => .error .keyError
    | some hop => minHopFold dm (min min_hop hop) hs

/-- `Topology.get_shortest_replica(nodeFrom, request)` (topology.py
lines 133-140).  Ensures the source's BFS results are memoized
(via `get_ISL_dist(nodeFrom, nodeFrom)` when absent), then folds `min`
over the memoized hop distances of the holders of `request` in the
global cache, starting from the literal `100000`.
Note the return value: a single `Nat`, not a pair. -/
def get_shortest_replica (g : Graph) (gc : List (ContentID × List Nat))
    (memo : Memo) (nodeFrom : Nat) (request : ContentID) :
    Memo × Except PyErr Nat :=
  let ens : Memo × Option PyErr :=
    match lookupL memo nodeFrom with
    | some _ => (memo, none)
    | none =>
      let r := get_ISL_dist g memo nodeFrom nodeFrom
      (r.1, match r.2 with | .ok _ => none | .error e => some e)
  match ens.2 with
  | some e => (ens.1, .error e)
  | none =>
    match lookupL gc request with
    | none => (ens.1, .error .keyError)
    | some holders =>
      match lookupL ens.1 nodeFrom with
      | none => (ens.1, .error .keyError)
      | some dm => (ens.1, minHopFold dm 100000 holders)

/-- `Topology.get_ISL_neighbor(node)` (topology.py lines 142-144):
the raw `[next, prev, left, right]` adjacency row of a node. -/
def get_ISL_neighbor (g : Graph) (node : Nat) : Option (List Nat) :=
  lookupG g node

/-! ## The CDN provider (`modelcdnprovider.py`) -/

/-- Per-satellite provider state: the `OrderedDict` cache (all stored
values are `True`, so only the insertion/recency-ordered key list
matters — oldest first, most recent last) and the separately tracked
`__cacheSize`. -/
structure SatState where
  cache : List ContentID
  cacheSize : Nat
deriving DecidableEq, Repr

/-- The shared topology state touched by the provider: the replica
directory `Topology.global_cache` (content → insertion-ordered holder
list), the static ISL graph, and the BFS distance memo. -/
structure Topo where
  global_cache : List (ContentID × List Nat)
  isl_graph : Graph
  isl_dist : Memo
deriving DecidableEq, Repr

/-- The full mutable state of one `__check_local_cache_only` batch:
the satellite and topology state plus the batch-local counters and the
`hits` output list.  `isl` is the `isl_cnt = [0, 0, 0, 0]` list
(slots next, prev, left, right). -/
structure StepSt where
  sat : SatState
  topo : Topo
  downlink : Nat
  uplink : Nat
  isl : List Nat
  hits : List Bool
deriving DecidableEq, Repr

/-- Cache hit path (modelcdnprovider.py lines 193-194):
`self.__cache.pop(request); self.__cache[request] = True` — the entry
is moved to the most-recent end of the order. -/
def moveToEnd (cache : List ContentID) (r : ContentID) : List ContentID :=
  cache.erase r ++ [r]

/-- Modelled from the spec: the LRU eviction strategy
`lruStrategy` (imported from
`src.models.models_cdn_provider.eviction_strategy.lrueviction`, whose
source file is not in the repository snapshot).  Spec §4.1: "Required
implementation: LRU — remove the oldest (least-recently-touched)
entry"; "The policy removes exactly one entry and returns the removed
key".  The call site takes component `[0]` of the returned pair, so
the strategy is modelled as `OrderedDict.popitem(last=False)`:
remove and return the oldest `(key, value)` entry, raising `KeyError`
on an empty dict. -/
def lruStrategy (cache : List ContentID) :
    Except PyErr ((ContentID × Bool) × List ContentID) :=
  match cache with
  | [] => .error .keyError
  | v :: rest => .ok ((v, true), rest)

/-- CPython semantics of the unpacking assignment
`shortest_hop, shortest_neighbor = v` when `v` is an `int`
(modelcdnprovider.py line 219 receives the bare `int` returned by
`get_shortest_replica`): iterating a non-iterable raises `TypeError`
before any name is bound. -/
def pyUnpackPairOfInt (_v : Nat) : Except PyErr (Nat × Nat) :=
  .error .typeError

/-- `isl_cnt[i] += 1` on a 4-slot counter list. -/
def bumpIsl (isl : List Nat) (i : Nat) : List Nat :=
  isl.set i (isl.getD i 0 + 1)

/-- The `for i in range(4)` tie-break loop (modelcdnprovider.py lines
224-227): find the first slot of the neighbor row equal to
`shortest_neighbor` and increment that counter; when no slot matches,
no counter is incremented. -/
def islTieBreak (neighbors : List Nat) (shortest_neighbor : Nat)
    (isl : List Nat) : List Nat :=
  match (neighbors.take 4).findIdx? (fun nb => nb = shortest_neighbor) with
  | some i => bumpIsl isl i
  | none => isl

/-- The admission step shared by the miss paths (modelcdnprovider.py
lines 234-241): grow the cache while `__cacheSize < __cacheCapacity`;
otherwise evict one victim via the eviction strategy and remove this
satellite from the victim's holder list
(`self.__myTopology.global_cache[poped].remove(self.__ownernode.nodeID)`
— `KeyError` when the victim is not a directory key, `ValueError` when
the satellite is not in the holder list), then insert the request as
most recent and append `False` to `hits`. -/
def admitRequest (cap me : Nat) (st : StepSt) (request : ContentID) :
    StepSt × Option PyErr :=
  if st.sat.cacheSize < cap then
    ({ st with
        sat := { cache := st.sat.cache ++ [request],
                 cacheSize := st.sat.cacheSize + 1 },
        hits := st.hits ++ [false] }, none)
  else
    match lruStrategy st.sat.cache with
    | .error e => (st, some e)
    | .ok (poped, rest) =>
      -- the eviction strategy has already removed the victim
      let st1 := { st with sat := { st.sat with cache := rest } }
      match lookupL st1.topo.global_cache poped.1 with
      | none => (st1, some .keyError)
      | some holders =>
        if me ∈ holders then
          ({ st1 with
              topo := { st1.topo with
                global_cache :=
                  setL st1.topo.global_cache poped.1 (holders.erase me) },
              sat := { st1.sat with cache := st1.sat.cache ++ [request] },
              hits := st1.hits ++ [false] }, none)
        else (st1, some .valueError)

/-- The remote-hit branch (modelcdnprovider.py lines 205-232), entered
when the request misses locally but the directory holder list is
non-empty.  The closest-holder telemetry computation (lines 208-217:
Euclidean distances via the external position oracle and `np.argmin`)
only feeds log lines and leaves `remote_source` bound to the *last*
holder of the loop; it is omitted here except for that binding.  Line
218 then calls `get_ISL_dist(self, remote_source.nodeID)` (mutating
the memo, possibly raising `KeyError`), line 219 calls
`get_shortest_replica` and unpacks its bare `int` result into two
names — which raises `TypeError` — so everything from line 221 on
(threshold test, ISL tie-break, holder append, admission) is dead
code on this branch; it is embedded nonetheless, guarded by the
unpack. -/
def remoteHit (cap me : Nat) (st : StepSt) (request : ContentID)
    (holders : List Nat) (hLast : Nat) : StepSt × Option PyErr :=
  let r1 := get_ISL_dist st.topo.isl_graph st.topo.isl_dist me hLast
  let st1 := { st with topo := { st.topo with isl_dist := r1.1 } }
  match r1.2 with
  | .error e => (st1, some e)
  | .ok _ =>
    let r2 := get_shortest_replica st1.topo.isl_graph st1.topo.global_cache
      st1.topo.isl_dist me request
    let st2 := { st1 with topo := { st1.topo with isl_dist := r2.1 } }
    match r2.2 with
    | .error e => (st2, some e)
    | .ok shortest_hop_int =>
      match pyUnpackPairOfInt shortest_hop_int with
      | .error e => (st2, some e)
      | .ok (shortest_hop, shortest_neighbor) =>
        let st3 :=
          if shortest_hop ≤ 1 then
            match get_ISL_neighbor st2.topo.isl_graph me with
            | none => none
            | some neighbors =>
              some { st2 with isl := islTieBreak neighbors shortest_neighbor st2.isl }
          else some { st2 with uplink := st2.uplink + 1 }
        match st3 with
        | none => (st2, some .keyError)
        | some st3 =>
          let st4 := { st3 with topo := { st3.topo with
            global_cache := setL st3.topo.global_cache request (holders ++ [me]) } }
          admitRequest cap me st4 request

/-- One iteration of the `for request in requests:` loop of
`__check_local_cache_only` (modelcdnprovider.py lines 190-243) on
satellite `me` with cache capacity `cap`: local hit (move to most
recent, append `True`), or — under the topology lock — uplink miss
(register as first holder, count an uplink, admit) or remote hit (see
`remoteHit`).  `downlink_cnt` is incremented at the end of every
iteration that completes without an exception. -/
def processRequest (cap me : Nat) (st : StepSt) (request : ContentID) :
    StepSt × Option PyErr :=
  if request ∈ st.sat.cache then
    ({ st with
        sat := { st.sat with cache := moveToEnd st.sat.cache request },
        hits := st.hits ++ [true],
        downlink := st.downlink + 1 }, none)
  else
    let hl := lookupL st.topo.global_cache request
    if hl = none ∨ (hl.getD []).length ≤ 0 then
      let st1 := { st with
        topo := { st.topo with
          global_cache := setL st.topo.global_cache request [me] },
        uplink := st.uplink + 1 }
      match admitRequest cap me st1 request with
      | (st2, none) => ({ st2 with downlink := st2.downlink + 1 }, none)
      | (st2, some e) => (st2, some e)
    else
      let holders := hl.getD []
      match remoteHit cap me st request holders (holders.getLast?.getD me) with
      | (st2, none) => ({ st2 with downlink := st2.downlink + 1 }, none)
      | (st2, some e) => (st2, some e)

/-- The request loop of `__check_local_cache_only`; a raised exception
aborts the batch, leaving the state as mutated so far. -/
def handleRequestsLoop (cap me : Nat) : List ContentID → StepSt →
    StepSt × Option PyErr
  | [], st => (st, none)
  | r :: rs, st =>
    match processRequest cap me st r with
    | (st', none) => handleRequestsLoop cap me rs st'
    | (st', some e) => (st', some e)

/-- Sum of the four per-neighbor ISL counters. -/
def islSum (isl : List Nat) : Nat := isl.sum

/-- Number of `True` entries of the hits list. -/
def trueHits (hits : List Bool) : Nat := (hits.filter id).length

/-- `ModelCDNProvider.__check_local_cache_only` (modelcdnprovider.py
lines 168-256) for one batch: run the request loop from zeroed
counters, then check the two sanity `assert`s (lines 246-247) —
`len(requests) == downlink_cnt` and
`len([i for i in hits if i]) == downlink_cnt - uplink_cnt - Σ isl_cnt`
(Python `int` subtraction, hence over `ℤ`).  A failed assert raises
`AssertionError`.  The topology-binding preamble (lines 170-178) and
the log emission are configuration wiring and telemetry and are not
part of the state machine. -/
def check_local_cache_only (cap me : Nat) (sat : SatState) (topo : Topo)
    (requests : List ContentID) : StepSt × Option PyErr :=
  let st0 : StepSt :=
    { sat := sat, topo := topo, downlink := 0, uplink := 0,
      isl := [0, 0, 0, 0], hits := [] }
  match handleRequestsLoop cap me requests st0 with
  | (st, some e) => (st, some e)
  | (st, none) =>
    if requests.length = st.downlink then
      if (trueHits st.hits : ℤ) =
          (st.downlink : ℤ) - (st.uplink : ℤ) - (islSum st.isl : ℤ) then
        (st, none)
      else (st, some .assertionError)
    else (st, some .assertionError)

/-- `ModelCDNProvider.__handle_requests` (modelcdnprovider.py lines
164-165): the registered handler for the `handle_requests` API.  It
forwards **only** `kwargs['requests']` to the configured strategy —
the `hop_to_check` keyword sent by the requester
(trafficscheduler.py line 493) is dropped here. -/
def handle_requests (cap me : Nat) (sat : SatState) (topo : Topo)
    (requests : List ContentID) (_hop_to_check : Nat) :
    StepSt × Option PyErr :=
  check_local_cache_only cap me sat topo requests

/-- Tag for the handlers registered in
`ModelCDNProvider.__apiHandlerDictionary` (modelcdnprovider.py lines
261-263): the dictionary has exactly one entry, `handle_requests`. -/
inductive HandlerTag where
  | handleRequests
deriving DecidableEq, Repr

/-- `ModelCDNProvider.__apiHandlerDictionary`. -/
def apiHandlerDictionary : List (String × HandlerTag) :=
  [("handle_requests", .handleRequests)]

/-- `ModelCDNProvider.call_APIs` (modelcdnprovider.py lines 99-120):
the dispatch `self.__apiHandlerDictionary[_apiName](self, **_kwargs)`
runs bare — the `try/except` that logged unhandled API requests and
returned `None` is commented out in the source (lines 115-118) — so
an API name that is not a dictionary key raises `KeyError` out of the
call (`Sum.inr`), and a handled call returns the handler result
(`Sum.inl`). -/
def call_APIs (cap me : Nat) (sat : SatState) (topo : Topo)
    (apiName : String) (requests : List ContentID) (hop_to_check : Nat) :
    (StepSt × Option PyErr) ⊕ PyErr :=
  match lookupL apiHandlerDictionary apiName with
  | none => Sum.inr .keyError
  | some .handleRequests =>
    Sum.inl (handle_requests cap me sat topo requests hop_to_check)

/-! ## Scheduler and requester (`traffic_scheduler_utils/utils.py`,
`trafficscheduler.py`)

Orbital propagation and elevation geometry are external collaborators
(spec §1): a node's position at the scheduling instant is an abstract
type `Pos`, and the elevation of a satellite position as seen from the
requester's location is an abstract function `elevFn : Pos → ℚ`
(degrees; the `arcsin` geometry of utils.py lines 57-79 is the
implementation of that function and is not re-modelled). -/

/-- `ENodeType` members used by the scheduler path. -/
inductive ENodeType where
  | SAT
  | GS
  | IOT
  | TRAFFIC_SCHEDULER
deriving DecidableEq, Repr

/-- A topology node as the scheduler sees it: its ID, its type, and
its position at the queried time (`get_Position` returns `None` when
no position is available, and such nodes are skipped). -/
structure SimNode (Pos : Type) where
  id : Nat
  typ : ENodeType
  pos : Option Pos
deriving DecidableEq, Repr

/-- `get_view_up(topology, location, time, target_node_type,
min_elevation=25)` (utils.py lines 6-88): collect `(nodeID,
elevation)` for every node of a target type that has a position; if no
such node exists return `None` (line 84); otherwise keep the pairs
with elevation `>= min_elevation` (line 87) — possibly an empty
list. -/
def get_view_up {Pos : Type} (nodes : List (SimNode Pos)) (elevFn : Pos → ℚ)
    (target_node_type : List ENodeType) (min_elevation : ℚ) :
    Option (List (Nat × ℚ)) :=
  let withElev := nodes.filterMap (fun n =>
    if n.typ ∈ target_node_type then n.pos.map (fun p => (n.id, elevFn p))
    else none)
  if withElev.length > 0 then
    some (withElev.filter (fun p => min_elevation ≤ p.2))
  else none

/-- Comparison used to sort the view by elevation (column 1 of
`np.argsort(views, axis=0)`), ascending. -/
def elevLE (p q : Nat × ℚ) : Prop := p.2 ≤ q.2

instance : DecidableRel elevLE := fun p q => inferInstanceAs (Decidable (p.2 ≤ q.2))

instance : IsTotal (Nat × ℚ) elevLE := ⟨fun p q => le_total p.2 q.2⟩

instance : IsTrans (Nat × ℚ) elevLE := ⟨fun _ _ _ h h' => le_trans h h'⟩

/-- `schduleLargestElevation(position, timestamp, topology,
num_to_schedule=1)` (utils.py lines 90-104): get the up-view of `SAT`
nodes at the default minimum elevation 25°; if it is `None` or empty
return `None`; otherwise sort by elevation ascending and return the
node IDs of the Python negative-index slice
`top_idx[:, 1][-min(num_to_schedule, len(views)):]` — for
`k := min(num_to_schedule, len(views)) > 0` that is the last `k`
entries (the `k` highest elevations, ascending), but for `k = 0` it is
`[-0:] = [0:]`, the **whole** array (CPython evaluates `-0` to `0`),
so `num_to_schedule = 0` returns every visible satellite.
`np.argsort`'s ordering of equal elevations is unspecified; a stable
sort is used here, and the theorems proved about the result do not
depend on tie order. -/
def schduleLargestElevation {Pos : Type} (nodes : List (SimNode Pos))
    (elevFn : Pos → ℚ) (num_to_schedule : Nat) : Option (List Nat) :=
  match get_view_up nodes elevFn [ENodeType.SAT] 25 with
  | none => none
  | some views =>
    if views.length = 0 then none
    else
      let sorted := views.insertionSort elevLE
      let k := min num_to_schedule views.length
      some ((if k = 0 then sorted
        else sorted.drop (sorted.length - k)).map Prod.fst)

/-- The satellites that `Requester.send_requests`
(trafficscheduler.py lines 479-494) dispatches `handle_requests`
calls to: when the scheduler returns `None` the requester logs
"Out of service" and returns without dispatching anything (lines
486-488); otherwise it calls each scheduled satellite once with one
chunk of the split request list (lines 489-493). -/
def send_requests_targets {Pos : Type} (nodes : List (SimNode Pos))
    (elevFn : Pos → ℚ) (load_balance_count : Nat) : List Nat :=
  match schduleLargestElevation nodes elevFn load_balance_count with
  | none => []
  | some sats => sats

/-! ## Graph-distance specification

The BFS of `get_ISL_dist` is specified against hop distance in the
adjacency `adj`: `reachSet g s n` is the set (as a list) of nodes
reachable from `s` by a path of at most `n` edges, and `IsDist g s t
d` says `d` is the exact hop distance from `s` to `t`. -/

/-- Nodes reachable from `s` within `n` hops. -/
def reachSet (g : Graph) (s : Nat) : Nat → List Nat
  | 0 => [s]
  | n + 1 => reachSet g s n ++ (reachSet g s n).flatMap (adj g)

/-- `t` is reachable from `s` within `n` hops. -/
def ReachIn (g : Graph) (s t n : Nat) : Prop := t ∈ reachSet g s n

instance (g : Graph) (s t n : Nat) : Decidable (ReachIn g s t n) :=
  inferInstanceAs (Decidable (t ∈ reachSet g s n))

/-- `d` is the exact hop distance from `s` to `t` in `g`. -/
def IsDist (g : Graph) (s t d : Nat) : Prop :=
  ReachIn g s t d ∧ ∀ e, e < d → ¬ ReachIn g s t e

instance (g : Graph) (s t d : Nat) : Decidable (IsDist g s t d) :=
  inferInstanceAs (Decidable (_ ∧ _))

/-- Decidable statement that the loaded adjacency is symmetric
(undirected ISL file): for every row `(n, nbs)` and neighbor
`m ∈ nbs`, `n` appears in `m`'s row. -/
def SymAdj (g : Graph) : Prop :=
  ∀ p ∈ g, ∀ m ∈ p.2, p.1 ∈ adj g m

instance (g : Graph) : Decidable (SymAdj g) :=
  inferInstanceAs (Decidable (∀ p ∈ g, ∀ m ∈ p.2, p.1 ∈ adj g m))

/-- Decidable statement that a distance memo is valid: every recorded
entry `memo[s][t] = d` is the exact hop distance from `s` to `t`. -/
def MemoValid (g : Graph) (memo : Memo) : Prop :=
  ∀ p ∈ memo, ∀ q ∈ p.2, IsDist g p.1 q.1 q.2

instance (g : Graph) (memo : Memo) : Decidable (MemoValid g memo) :=
  inferInstanceAs (Decidable (∀ p ∈ memo, ∀ q ∈ p.2, IsDist g p.1 q.1 q.2))

/-- Invariant bundle of the BFS loop state (queue, visited set,
distance dict), relative to graph `g` and start node `s`. -/
structure BfsInv (g : Graph) (s : Nat) (Q : List (Nat × Nat)) (V : List Nat)
    (D : DMap) : Prop where
  startMem : s ∈ V
  dSound : ∀ p ∈ D, IsDist g s p.1 p.2
  qSound : ∀ p ∈ Q, IsDist g s p.1 p.2
  vChar : ∀ v, v ∈ V ↔ (lookupL D v).isSome = true ∨ ∃ p ∈ Q, p.1 = v
  qNodup : (Q.map Prod.fst).Nodup
  qNotDone : ∀ p ∈ Q, lookupL D p.1 = none
  qMono : Q.Pairwise (fun p q => p.2 ≤ q.2)
  qBand : ∀ hd, Q.head? = some hd → ∀ p ∈ Q, p.2 ≤ hd.2 + 1
  doneNbrs : ∀ t d, lookupL D t = some d → ∀ m ∈ adj g t, m ∈ V
  frontier : ∀ u e, IsDist g s u e →
    (∀ hd, Q.head? = some hd → e < hd.2) → (lookupL D u).isSome = true

/-! ## Replica-directory consistency invariant

Spec §8 invariant 1 / §4.3: `s.cache.Contains(c)` ⇔
`s ∈ directory.Holders(c)`.  The formulation below quantifies over a
finite family `sats` of `(satelliteID, cache-key-list)` pairs — the
satellites of one topology — and states the biconditional in
occurrence-count form (each holder appears exactly once in a holder
list), which is what the `list.remove` call on the eviction path
relies on. -/

/-- The directory holder list of a content ID; an absent key reads as
the empty list (readers treat both the same way). -/
def holdersOf (gc : List (ContentID × List Nat)) (c : ContentID) : List Nat :=
  (lookupL gc c).getD []

/-- Cache/directory consistency invariant for a replica directory
`gc` and a family `sats` of satellites given as
`(nodeID, cache key list)` pairs:
directory keys and satellite IDs are unique, caches have no duplicate
keys, every cached content has its satellite exactly once in the
holder list, and every holder-list member has the content cached. -/
def CdnInv (gc : List (ContentID × List Nat))
    (sats : List (Nat × List ContentID)) : Prop :=
  (gc.map Prod.fst).Nodup ∧
  (sats.map Prod.fst).Nodup ∧
  (∀ p ∈ sats, p.2.Nodup) ∧
  (∀ p ∈ sats, ∀ c ∈ p.2, (holdersOf gc c).count p.1 = 1) ∧
  (∀ q ∈ gc, ∀ p ∈ sats, p.1 ∈ q.2 → q.1 ∈ p.2)

instance (gc : List (ContentID × List Nat))
    (sats : List (Nat × List ContentID)) : Decidable (CdnInv gc sats) :=
  inferInstanceAs (Decidable (_ ∧ _ ∧ _ ∧ _ ∧ _))

/-- Replace satellite `me`'s cache in the family after it ran a
batch. -/
def updateSat (sats : List (Nat × List ContentID)) (me : Nat)
    (c : List ContentID) : List (Nat × List ContentID) :=
  sats.map (fun p => if p.1 = me then (p.1, c) else p)

/-! ## Concrete fixtures used by witnesses and counterexamples -/

/-- A two-satellite topology: nodes 0 and 1 joined by one ISL. -/
def gEx : Graph := [(0, [1]), (1, [0])]

/-- The BFS distance memo produced by running `get_ISL_dist` on `gEx`
from source 0. -/
def memoEx : Memo := [(0, [(0, 0), (1, 1)])]

/-- A provider batch state on `gEx`: satellite 0 with an empty cache,
content `"v"` held by satellite 1, zeroed counters. -/
def stEx : StepSt :=
  { sat := { cache := [], cacheSize := 0 }
    topo := { global_cache := [("v", [1])], isl_graph := gEx, isl_dist := [] }
    downlink := 0
    uplink := 0
    isl := [0, 0, 0, 0]
    hits := [] }

/-- A provider batch state whose satellite 0 already caches `"a"` and
`"b"` (directory consistent with the caches). -/
def stHitEx : StepSt :=
  { sat := { cache := ["a", "b"], cacheSize := 2 }
    topo := { global_cache := [("a", [0]), ("b", [0])], isl_graph := gEx,
              isl_dist := [] }
    downlink := 0
    uplink := 0
    isl := [0, 0, 0, 0]
    hits := [] }

/-! ## Association-list lemmas -/

theorem lookupL_setL_self {α β : Type} [DecidableEq α] (m : List (α × β))
    (k : α) (v : β) : lookupL (setL m k v) k = some v := by
  induction m with
  | nil => simp [setL, lookupL]
  | cons p rest ih =>
    by_cases h : p.1 = k
    · simp [setL, h, lookupL]
    · simp [setL, h, lookupL, ih]

theorem lookupL_setL_ne {α β : Type} [DecidableEq α] (m : List (α × β))
    {k k' : α} (v : β) (h : k' ≠ k) :
    lookupL (setL m k v) k' = lookupL m k' := by
  have hne : ¬ k = k' := fun h' => h h'.symm
  induction m with
  | nil => simp [setL, lookupL, hne]
  | cons p rest ih =>
    by_cases hp : p.1 = k
    · subst hp
      simp [setL, lookupL, hne]
    · simp [setL, hp, lookupL, ih]

theorem lookupL_mem {α β : Type} [DecidableEq α] {m : List (α × β)}
    {k : α} {v : β} (h : lookupL m k = some v) : (k, v) ∈ m := by
  induction m with
  | nil => simp [lookupL] at h
  | cons p rest ih =>
    by_cases hp : p.1 = k
    · simp only [lookupL, hp, if_pos] at h
      have : p = (k, v) := by
        obtain ⟨a, b⟩ := p
        simp only [Option.some.injEq] at h
        simp_all
      exact this ▸ List.mem_cons_self _ _
    · simp only [lookupL, hp, if_false] at h
      exact List.mem_cons_of_mem _ (ih h)

theorem mem_key_of_lookupL_isSome {α β : Type} [DecidableEq α]
    {m : List (α × β)} {k : α} (h : (lookupL m k).isSome = true) :
    k ∈ m.map Prod.fst := by
  obtain ⟨v, hv⟩ := Option.isSome_iff_exists.mp h
  exact List.mem_map_of_mem Prod.fst (lookupL_mem hv)

theorem lookupL_isSome_of_mem {α β : Type} [DecidableEq α]
    {m : List (α × β)} {k : α} {v : β} (h : (k, v) ∈ m) :
    (lookupL m k).isSome = true := by
  induction m with
  | nil => simp at h
  | cons p rest ih =>
    rcases List.mem_cons.mp h with h | h
    · subst h
      simp [lookupL]
    · by_cases hp : p.1 = k
      · simp [lookupL, hp]
      · simpa [lookupL, hp] using ih h

theorem lookupL_eq_none_iff {α β : Type} [DecidableEq α]
    {m : List (α × β)} {k : α} :
    lookupL m k = none ↔ k ∉ m.map Prod.fst := by
  constructor
  · intro h hk
    obtain ⟨p, hp, hk⟩ := List.mem_map.mp hk
    have : (lookupL m k).isSome = true :=
      lookupL_isSome_of_mem (show (k, p.2) ∈ m by simpa [← hk] using hp)
    simp [h] at this
  · intro hk
    cases hv : lookupL m k with
    | none => rfl
    | some v => exact absurd (mem_key_of_lookupL_isSome (by simp [hv])) hk

theorem setL_of_lookup_none {α β : Type} [DecidableEq α] {m : List (α × β)}
    {k : α} (h : lookupL m k = none) (v : β) :
    setL m k v = m ++ [(k, v)] := by
  induction m with
  | nil => simp [setL]
  | cons p rest ih =>
    by_cases hp : p.1 = k
    · simp [lookupL, hp] at h
    · simp only [lookupL, hp, if_false] at h
      simp [setL, hp, ih h]

theorem setL_map_fst_of_isSome {α β : Type} [DecidableEq α]
    {m : List (α × β)} {k : α} (h : (lookupL m k).isSome = true) (v : β) :
    (setL m k v).map Prod.fst = m.map Prod.fst := by
  induction m with
  | nil => simp [lookupL] at h
  | cons p rest ih =>
    by_cases hp : p.1 = k
    · simp [setL, hp]
    · simp only [lookupL, hp, if_false] at h
      simp [setL, hp, ih h]

theorem setL_keys_nodup {α β : Type} [DecidableEq α] {m : List (α × β)}
    (hm : (m.map Prod.fst).Nodup) (k : α) (v : β) :
    ((setL m k v).map Prod.fst).Nodup := by
  cases hk : lookupL m k with
  | some w =>
    rw [setL_map_fst_of_isSome (by simp [hk]) v]
    exact hm
  | none =>
    rw [setL_of_lookup_none hk v]
    have hknot : k ∉ m.map Prod.fst := lookupL_eq_none_iff.mp hk
    simp only [List.map_append, List.map_cons, List.map_nil]
    exact List.Nodup.append hm (List.nodup_singleton k)
      (by simpa [List.disjoint_singleton] using hknot)

theorem mem_setL {α β : Type} [DecidableEq α] {m : List (α × β)}
    (hm : (m.map Prod.fst).Nodup) (k : α) (v : β) {x : α × β} :
    x ∈ setL m k v ↔ x = (k, v) ∨ (x ∈ m ∧ x.1 ≠ k) := by
  induction m with
  | nil => simp [setL]
  | cons p rest ih =>
    rw [List.map_cons] at hm
    have hrest : (rest.map Prod.fst).Nodup := (List.nodup_cons.mp hm).2
    have hhead : p.1 ∉ rest.map Prod.fst := (List.nodup_cons.mp hm).1
    by_cases hp : p.1 = k
    · subst hp
      have hnotin : ∀ y ∈ rest, y.1 ≠ p.1 := by
        intro y hy hcontra
        exact hhead (hcontra ▸ List.mem_map_of_mem Prod.fst hy)
      constructor
      · intro hx
        rcases List.mem_cons.mp (by simpa [setL] using hx) with h | h
        · left; exact h
        · right; exact ⟨List.mem_cons_of_mem _ h, hnotin _ h⟩
      · intro hx
        rcases hx with h | ⟨hmem, hne⟩
        · simp [setL, h]
        · rcases List.mem_cons.mp hmem with h | h
          · exact absurd (by rw [h]) hne
          · simp [setL, List.mem_cons_of_mem _ h]
    · simp only [setL, hp, if_false]
      constructor
      · intro hx
        rcases List.mem_cons.mp hx with h | h
        · subst h
          right
          exact ⟨List.mem_cons_self _ _, hp⟩
        · rcases (ih hrest).mp h with h' | ⟨hmem, hne⟩
          · left; exact h'
          · right; exact ⟨List.mem_cons_of_mem _ hmem, hne⟩
      · intro hx
        rcases hx with h | ⟨hmem, hne⟩
        · exact List.mem_cons_of_mem _ ((ih hrest).mpr (Or.inl h))
        · rcases List.mem_cons.mp hmem with h | h
          · exact h ▸ List.mem_cons_self _ _
          · exact List.mem_cons_of_mem _ ((ih hrest).mpr (Or.inr ⟨h, hne⟩))

/-! ## Reachability lemmas -/

theorem reachSet_subset_succ (g : Graph) (s : Nat) (n : Nat) :
    reachSet g s n ⊆ reachSet g s (n + 1) := by
  intro t ht
  simp [reachSet]
  exact Or.inl ht

theorem reachSet_mono (g : Graph) (s : Nat) {n m : Nat} (h : n ≤ m) :
    reachSet g s n ⊆ reachSet g s m := by
  induction m with
  | zero => cases Nat.le_zero.mp h; exact fun _ ht => ht
  | succ m ih =>
    rcases Nat.lt_or_ge n (m + 1) with h' | h'
    · exact fun t ht =>
        reachSet_subset_succ g s m (ih (Nat.lt_succ_iff.mp h') ht)
    · cases Nat.le_antisymm h h'
      exact fun _ ht => ht

theorem self_mem_reachSet (g : Graph) (s : Nat) (n : Nat) :
    s ∈ reachSet g s n :=
  reachSet_mono g s (Nat.zero_le n) (by simp [reachSet])

theorem mem_reachSet_succ_iff (g : Graph) (s t : Nat) (n : Nat) :
    t ∈ reachSet g s (n + 1) ↔
    t ∈ reachSet g s n ∨ ∃ u ∈ reachSet g s n, t ∈ adj g u := by
  simp [reachSet]

theorem reachIn_exists_isDist {g : Graph} {s t n : Nat}
    (h : ReachIn g s t n) : ∃ d, d ≤ n ∧ IsDist g s t d := by
  have hex : ∃ m, ReachIn g s t m := ⟨n, h⟩
  classical
  refine ⟨Nat.find hex, Nat.find_le h, Nat.find_spec hex, ?_⟩
  intro e he
  exact Nat.find_min hex he

theorem isDist_unique {g : Graph} {s t d d' : Nat}
    (h : IsDist g s t d) (h' : IsDist g s t d') : d = d' := by
  rcases Nat.lt_trichotomy d d' with hlt | heq | hgt
  · exact absurd h.1 (h'.2 d hlt)
  · exact heq
  · exact absurd h'.1 (h.2 d' hgt)

theorem isDist_self (g : Graph) (s : Nat) : IsDist g s s 0 :=
  ⟨by simp [ReachIn, reachSet], by intro e he; omega⟩

theorem reachIn_step {g : Graph} {s u m : Nat} {d : Nat}
    (hu : ReachIn g s u d) (hm : m ∈ adj g u) : ReachIn g s m (d + 1) :=
  (mem_reachSet_succ_iff g s m d).mpr (Or.inr ⟨u, hu, hm⟩)

theorem isDist_pred {g : Graph} {s m d : Nat}
    (h : IsDist g s m (d + 1)) :
    ∃ u e, e ≤ d ∧ IsDist g s u e ∧ m ∈ adj g u := by
  rcases (mem_reachSet_succ_iff g s m d).mp h.1 with hm | ⟨u, hu, hm⟩
  · exact absurd hm (h.2 d (Nat.lt_succ_self d))
  · obtain ⟨e, he, hdist⟩ := reachIn_exists_isDist hu
    exact ⟨u, e, he, hdist, hm⟩

theorem reachSet_cons_step {g : Graph} {t u : Nat} (hadj : u ∈ adj g t) :
    ∀ n w, w ∈ reachSet g u n → w ∈ reachSet g t (n + 1) := by
  intro n
  induction n with
  | zero =>
    intro w hw
    simp [reachSet] at hw
    subst hw
    exact (mem_reachSet_succ_iff g t w 0).mpr
      (Or.inr ⟨t, by simp [reachSet], hadj⟩)
  | succ n ih =>
    intro w hw
    rcases (mem_reachSet_succ_iff g u w n).mp hw with hw | ⟨v, hv, hw⟩
    · exact reachSet_subset_succ g t (n + 1) (ih w hw)
    · exact (mem_reachSet_succ_iff g t w (n + 1)).mpr
        (Or.inr ⟨v, ih v hv, hw⟩)

theorem symAdj_adj {g : Graph} (hsym : SymAdj g) {n m : Nat}
    (h : m ∈ adj g n) : n ∈ adj g m := by
  unfold adj lookupG at h
  cases hl : lookupL g n with
  | none => simp [hl] at h
  | some l =>
    rw [hl] at h
    exact hsym (n, l) (lookupL_mem hl) m h

theorem reachSet_symm {g : Graph} (hsym : SymAdj g) :
    ∀ n s t, t ∈ reachSet g s n → s ∈ reachSet g t n := by
  intro n
  induction n with
  | zero =>
    intro s t ht
    simp [reachSet] at ht ⊢
    exact ht.symm
  | succ n ih =>
    intro s t ht
    rcases (mem_reachSet_succ_iff g s t n).mp ht with ht | ⟨u, hu, ht⟩
    · exact reachSet_subset_succ g t n (ih s t ht)
    · exact reachSet_cons_step (symAdj_adj hsym ht) n s (ih s u hu)

theorem isDist_symm {g : Graph} (hsym : SymAdj g) {s t d : Nat}
    (h : IsDist g s t d) : IsDist g t s d := by
  refine ⟨reachSet_symm hsym d s t h.1, ?_⟩
  intro e he hc
  exact h.2 e he (reachSet_symm hsym e t s hc)

/-! ## BFS loop invariant preservation and soundness -/

theorem mem_setL_weak {α β : Type} [DecidableEq α] {m : List (α × β)}
    {k : α} {v : β} {x : α × β} (h : x ∈ setL m k v) :
    x = (k, v) ∨ x ∈ m := by
  induction m with
  | nil => simpa [setL] using h
  | cons p rest ih =>
    by_cases hp : p.1 = k
    · rcases List.mem_cons.mp (by simpa [setL, hp] using h) with h' | h'
      · left; exact h'
      · right; exact List.mem_cons_of_mem _ h'
    · rcases List.mem_cons.mp (by simpa [setL, hp] using h) with h' | h'
      · right; exact h' ▸ List.mem_cons_self _ _
      · rcases ih h' with h'' | h''
        · left; exact h''
        · right; exact List.mem_cons_of_mem _ h''

theorem enqueueNeighbors_vis_mem (d : Nat) (nbs : List Nat) (vis : List Nat)
    (q : List (Nat × Nat)) :
    ∀ x, x ∈ (enqueueNeighbors d nbs vis q).1 ↔ x ∈ vis ∨ x ∈ nbs := by
  induction nbs generalizing vis q with
  | nil => intro x; simp [enqueueNeighbors]
  | cons nb nbs ih =>
    intro x
    by_cases hnb : nb ∈ vis
    · rw [show enqueueNeighbors d (nb :: nbs) vis q
          = enqueueNeighbors d nbs vis q by simp [enqueueNeighbors, hnb]]
      rw [ih vis q x]
      constructor
      · rintro (h | h)
        · exact Or.inl h
        · exact Or.inr (List.mem_cons_of_mem _ h)
      · rintro (h | h)
        · exact Or.inl h
        · rcases List.mem_cons.mp h with h | h
          · exact Or.inl (h ▸ hnb)
          · exact Or.inr h
    · rw [show enqueueNeighbors d (nb :: nbs) vis q
          = enqueueNeighbors d nbs (nb :: vis) (q ++ [(nb, d + 1)]) by
            simp [enqueueNeighbors, hnb]]
      rw [ih (nb :: vis) (q ++ [(nb, d + 1)]) x]
      constructor
      · rintro (h | h)
        · rcases List.mem_cons.mp h with h | h
          · exact Or.inr (h ▸ List.mem_cons_self _ _)
          · exact Or.inl h
        · exact Or.inr (List.mem_cons_of_mem _ h)
      · rintro (h | h)
        · exact Or.inl (List.mem_cons_of_mem _ h)
        · rcases List.mem_cons.mp h with h | h
          · exact Or.inl (h ▸ List.mem_cons_self _ _)
          · exact Or.inr h

theorem enqueueNeighbors_queue_spec (d : Nat) (nbs : List Nat)
    (vis : List Nat) (q : List (Nat × Nat)) :
    ∃ new, (enqueueNeighbors d nbs vis q).2 = q ++ new ∧
      (∀ p ∈ new, p.2 = d + 1 ∧ p.1 ∈ nbs ∧ p.1 ∉ vis) ∧
      (new.map Prod.fst).Nodup ∧
      (∀ x, x ∈ new.map Prod.fst ↔ x ∈ nbs ∧ x ∉ vis) := by
  induction nbs generalizing vis q with
  | nil =>
    refine ⟨[], by simp [enqueueNeighbors], by simp, by simp, by simp⟩
  | cons nb nbs ih =>
    by_cases hnb : nb ∈ vis
    · rw [show enqueueNeighbors d (nb :: nbs) vis q
          = enqueueNeighbors d nbs vis q by simp [enqueueNeighbors, hnb]]
      obtain ⟨new, hq, hp, hnd, hkeys⟩ := ih vis q
      refine ⟨new, hq, ?_, hnd, ?_⟩
      · intro p hpm
        obtain ⟨h1, h2, h3⟩ := hp p hpm
        exact ⟨h1, List.mem_cons_of_mem _ h2, h3⟩
      · intro x
        rw [hkeys x]
        constructor
        · rintro ⟨h1, h2⟩
          exact ⟨List.mem_cons_of_mem _ h1, h2⟩
        · rintro ⟨h1, h2⟩
          rcases List.mem_cons.mp h1 with h | h
          · exact absurd (h ▸ hnb) h2
          · exact ⟨h, h2⟩
    · rw [show enqueueNeighbors d (nb :: nbs) vis q
          = enqueueNeighbors d nbs (nb :: vis) (q ++ [(nb, d + 1)]) by
            simp [enqueueNeighbors, hnb]]
      obtain ⟨new, hq, hp, hnd, hkeys⟩ := ih (nb :: vis) (q ++ [(nb, d + 1)])
      refine ⟨(nb, d + 1) :: new, by simpa using hq, ?_, ?_, ?_⟩
      · intro p hpm
        rcases List.mem_cons.mp hpm with h | h
        · subst h
          exact ⟨rfl, List.mem_cons_self _ _, hnb⟩
        · obtain ⟨h1, h2, h3⟩ := hp p h
          exact ⟨h1, List.mem_cons_of_mem _ h2,
            fun hv => h3 (List.mem_cons_of_mem _ hv)⟩
      · rw [List.map_cons]
        refine List.nodup_cons.mpr ⟨?_, hnd⟩
        intro hmem
        have := (hkeys nb).mp hmem
        exact this.2 (List.mem_cons_self _ _)
      · intro x
        rw [List.map_cons, List.mem_cons, hkeys x]
        constructor
        · rintro (h | ⟨h1, h2⟩)
          · exact ⟨h ▸ List.mem_cons_self _ _, h ▸ hnb⟩
          · exact ⟨List.mem_cons_of_mem _ h1,
              fun hv => h2 (List.mem_cons_of_mem _ hv)⟩
        · rintro ⟨h1, h2⟩
          rcases List.mem_cons.mp h1 with h | h
          · exact Or.inl h
          · by_cases hx : x = nb
            · exact Or.inl hx
            · exact Or.inr ⟨h, by
                intro hv
                rcases List.mem_cons.mp hv with h' | h'
                · exact hx h'
                · exact h2 h'⟩

theorem bfsInv_step {g : Graph} {s n d : Nat} {rest : List (Nat × Nat)}
    {V : List Nat} {D : DMap} {nbs : List Nat}
    (inv : BfsInv g s ((n, d) :: rest) V D) (hadj : lookupG g n = some nbs) :
    BfsInv g s (enqueueNeighbors d nbs V rest).2
      (enqueueNeighbors d nbs V rest).1 (setL D n d) := by
  obtain ⟨new, hq, hnewp, hnewnd, hnewkeys⟩ :=
    enqueueNeighbors_queue_spec d nbs V rest
  have hvis := enqueueNeighbors_vis_mem d nbs V rest
  set V' := (enqueueNeighbors d nbs V rest).1
  set Q' := (enqueueNeighbors d nbs V rest).2
  set D' := setL D n d with hD'def
  have hn_dist : IsDist g s n d := inv.qSound (n, d) (List.mem_cons_self _ _)
  have hadj_eq : adj g n = nbs := by simp [adj, hadj]
  have hD'n : lookupL D' n = some d := lookupL_setL_self D n d
  have hD'ne : ∀ t, t ≠ n → lookupL D' t = lookupL D t := fun t ht =>
    lookupL_setL_ne D d ht
  have nInV : n ∈ V :=
    (inv.vChar n).mpr (Or.inr ⟨(n, d), List.mem_cons_self _ _, rfl⟩)
  have restKeysInV : ∀ p ∈ rest, p.1 ∈ V := fun p hp =>
    (inv.vChar p.1).mpr (Or.inr ⟨p, List.mem_cons_of_mem _ hp, rfl⟩)
  have dKeysInV : ∀ t, (lookupL D t).isSome = true → t ∈ V := fun t h =>
    (inv.vChar t).mpr (Or.inl h)
  have restMinD : ∀ p ∈ rest, d ≤ p.2 := fun p hp =>
    (List.pairwise_cons.mp inv.qMono).1 p hp
  have restBand : ∀ p ∈ rest, p.2 ≤ d + 1 := fun p hp =>
    inv.qBand (n, d) rfl p (List.mem_cons_of_mem _ hp)
  have hD'some : ∀ v, (lookupL D' v).isSome = true ↔
      v = n ∨ (lookupL D v).isSome = true := by
    intro v
    by_cases hv : v = n
    · subst hv; simp [hD'n]
    · rw [hD'ne v hv]; simp [hv]
  have dSound' : ∀ p ∈ D', IsDist g s p.1 p.2 := by
    intro p hp
    rcases mem_setL_weak hp with h | h
    · subst h; exact hn_dist
    · exact inv.dSound p h
  have distInV : ∀ u e, IsDist g s u e → e < d →
      (lookupL D u).isSome = true := by
    intro u e hu he
    refine inv.frontier u e hu ?_
    intro hd hhd
    simp only [List.head?_cons, Option.some.injEq] at hhd
    rw [← hhd]
    exact he
  have vOfDistLe : ∀ u e, IsDist g s u e → e ≤ d → u ∈ V := by
    intro u e hu he
    rcases Nat.lt_or_ge e d with hlt | hge
    · exact dKeysInV u (distInV u e hu hlt)
    · have hed : e = d := Nat.le_antisymm he hge
      rcases Nat.eq_zero_or_pos e with he0 | hepos
      · subst he0
        have : u = s := by simpa [ReachIn, reachSet] using hu.1
        exact this ▸ inv.startMem
      · have hu' : IsDist g s u ((e - 1) + 1) := by
          rwa [Nat.sub_add_cancel hepos]
        obtain ⟨w, e₂, he₂, hw, hadj_w⟩ := isDist_pred hu'
        have hw_some : (lookupL D w).isSome = true :=
          distInV w e₂ hw (by omega)
        obtain ⟨dw, hdw⟩ := Option.isSome_iff_exists.mp hw_some
        exact inv.doneNbrs w dw hdw u hadj_w
  have newSound : ∀ p ∈ new, IsDist g s p.1 (d + 1) := by
    intro p hp
    obtain ⟨hp2, hpnbs, hpnotv⟩ := hnewp p hp
    refine ⟨reachIn_step hn_dist.1 (hadj_eq ▸ hpnbs), ?_⟩
    intro e he hreach
    obtain ⟨e', he', hdist'⟩ := reachIn_exists_isDist hreach
    exact hpnotv (vOfDistLe p.1 e' hdist' (by omega))
  have qSound' : ∀ p ∈ Q', IsDist g s p.1 p.2 := by
    intro p hp
    rw [hq] at hp
    rcases List.mem_append.mp hp with h | h
    · exact inv.qSound p (List.mem_cons_of_mem _ h)
    · rw [(hnewp p h).1]
      exact newSound p h
  have vChar' : ∀ v, v ∈ V' ↔ (lookupL D' v).isSome = true ∨
      ∃ p ∈ Q', p.1 = v := by
    intro v
    have hFromV : v ∈ V → (lookupL D' v).isSome = true ∨
        ∃ p ∈ Q', p.1 = v := by
      intro hv
      rcases (inv.vChar v).mp hv with h | ⟨p, hp, hpv⟩
      · exact Or.inl ((hD'some v).mpr (Or.inr h))
      · rcases List.mem_cons.mp hp with h | h
        · have : v = n := by rw [← hpv, h]
          exact Or.inl ((hD'some v).mpr (Or.inl this))
        · exact Or.inr ⟨p, by rw [hq]; exact List.mem_append_left _ h, hpv⟩
    rw [hvis v]
    constructor
    · rintro (hv | hv)
      · exact hFromV hv
      · by_cases hvin : v ∈ V
        · exact hFromV hvin
        · have : v ∈ new.map Prod.fst := (hnewkeys v).mpr ⟨hv, hvin⟩
          obtain ⟨p, hp, hpv⟩ := List.mem_map.mp this
          exact Or.inr ⟨p, by rw [hq]; exact List.mem_append_right _ hp, hpv⟩
    · rintro (hv | ⟨p, hp, hpv⟩)
      · rcases (hD'some v).mp hv with h | h
        · exact Or.inl (h ▸ nInV)
        · exact Or.inl (dKeysInV v h)
      · rw [hq] at hp
        rcases List.mem_append.mp hp with h | h
        · exact Or.inl (hpv ▸ restKeysInV p h)
        · exact Or.inr (hpv ▸ (hnewp p h).2.1)
  have qNodup' : (Q'.map Prod.fst).Nodup := by
    rw [hq, List.map_append]
    refine List.Nodup.append ?_ hnewnd ?_
    · have hn2 := inv.qNodup
      rw [List.map_cons] at hn2
      exact (List.nodup_cons.mp hn2).2
    · intro x hx hx'
      obtain ⟨p, hp, hpx⟩ := List.mem_map.mp hx
      exact ((hnewkeys x).mp hx').2 (hpx ▸ restKeysInV p hp)
  have qNotDone' : ∀ p ∈ Q', lookupL D' p.1 = none := by
    intro p hp
    rw [hq] at hp
    rcases List.mem_append.mp hp with h | h
    · have hpn : p.1 ≠ n := by
        intro hcontra
        have hn2 := inv.qNodup
        rw [List.map_cons] at hn2
        have hmem : p.1 ∈ rest.map Prod.fst :=
          List.mem_map_of_mem Prod.fst h
        rw [hcontra] at hmem
        exact (List.nodup_cons.mp hn2).1 hmem
      rw [hD'ne p.1 hpn]
      exact inv.qNotDone p (List.mem_cons_of_mem _ h)
    · have hnotv : p.1 ∉ V := (hnewp p h).2.2
      have hpn : p.1 ≠ n := fun hc => hnotv (hc ▸ nInV)
      rw [hD'ne p.1 hpn]
      cases hl : lookupL D p.1 with
      | none => rfl
      | some w => exact absurd (dKeysInV p.1 (by simp [hl])) hnotv
  have qMono' : Q'.Pairwise (fun p q => p.2 ≤ q.2) := by
    rw [hq, List.pairwise_append]
    refine ⟨(List.pairwise_cons.mp inv.qMono).2, ?_, ?_⟩
    · refine List.pairwise_of_forall_mem_list ?_
      intro a ha b hb
      rw [(hnewp a ha).1, (hnewp b hb).1]
    · intro a ha b hb
      rw [(hnewp b hb).1]
      exact restBand a ha
  have qBand' : ∀ hd, Q'.head? = some hd → ∀ p ∈ Q', p.2 ≤ hd.2 + 1 := by
    intro hd hhd p hp
    rw [hq] at hhd hp
    cases hrest : rest with
    | nil =>
      rw [hrest] at hhd hp
      simp only [List.nil_append] at hhd hp
      have hdmem : hd ∈ new := by
        cases new with
        | nil => simp at hhd
        | cons a l =>
          simp only [List.head?_cons, Option.some.injEq] at hhd
          exact hhd ▸ List.mem_cons_self _ _
      rw [(hnewp p hp).1, (hnewp hd hdmem).1]
      omega
    | cons r0 rest' =>
      rw [hrest] at hhd hp
      simp only [List.cons_append, List.head?_cons, Option.some.injEq] at hhd
      have hr0 : d ≤ hd.2 := by
        rw [← hhd]
        exact restMinD r0 (by rw [hrest]; exact List.mem_cons_self _ _)
      rcases List.mem_append.mp hp with h | h
      · have hpb : p.2 ≤ d + 1 :=
          restBand p (by rw [hrest]; exact h)
        omega
      · have := (hnewp p h).1
        omega
  have doneNbrs' : ∀ t dt, lookupL D' t = some dt → ∀ m ∈ adj g t,
      m ∈ V' := by
    intro t dt hlk m hm
    by_cases ht : t = n
    · subst ht
      rw [hadj_eq] at hm
      exact (hvis m).mpr (Or.inr hm)
    · rw [hD'ne t ht] at hlk
      exact (hvis m).mpr (Or.inl (inv.doneNbrs t dt hlk m hm))
  have frontier' : ∀ u e, IsDist g s u e →
      (∀ hd, Q'.head? = some hd → e < hd.2) →
      (lookupL D' u).isSome = true := by
    intro u e
    induction e using Nat.strong_induction_on generalizing u with
    | _ e ih =>
      intro hu hcond
      have huV' : u ∈ V' := by
        rcases Nat.eq_zero_or_pos e with he0 | hepos
        · subst he0
          have : u = s := by simpa [ReachIn, reachSet] using hu.1
          exact (hvis u).mpr (Or.inl (this ▸ inv.startMem))
        · have hu' : IsDist g s u ((e - 1) + 1) := by
            rwa [Nat.sub_add_cancel hepos]
          obtain ⟨w, e₂, he₂, hw, hadj_w⟩ := isDist_pred hu'
          have hw_some := ih e₂ (by omega) w hw
            (fun hd hhd => lt_trans (by omega) (hcond hd hhd))
          obtain ⟨dw, hdw⟩ := Option.isSome_iff_exists.mp hw_some
          exact doneNbrs' w dw hdw u hadj_w
      rcases (vChar' u).mp huV' with h | ⟨p, hp, hpu⟩
      · exact h
      · exfalso
        have hsound := qSound' p hp
        have hepu : e = p.2 := isDist_unique hu (hpu ▸ hsound)
        rcases List.exists_cons_of_ne_nil (List.ne_nil_of_mem hp) with
          ⟨q0, tail, hq0⟩
        have hhd : Q'.head? = some q0 := by rw [hq0]; rfl
        have hmin : q0.2 ≤ p.2 := by
          rcases List.mem_cons.mp (hq0 ▸ hp) with h | h
          · rw [h]
          · exact (List.pairwise_cons.mp (hq0 ▸ qMono')).1 p h
        have := hcond q0 hhd
        omega
  exact
    { startMem := (hvis s).mpr (Or.inl inv.startMem)
      dSound := dSound'
      qSound := qSound'
      vChar := vChar'
      qNodup := qNodup'
      qNotDone := qNotDone'
      qMono := qMono'
      qBand := qBand'
      doneNbrs := doneNbrs'
      frontier := frontier' }

/-- Every entry written by the BFS loop — also when it stops on an
exception or on fuel exhaustion — records the exact hop distance from
the start node. -/
theorem bfsLoop_sound {g : Graph} {s : Nat} :
    ∀ (fuel : Nat) (Q : List (Nat × Nat)) (V : List Nat) (D : DMap),
    BfsInv g s Q V D →
    ∀ p ∈ (bfsLoop g fuel Q V D).1, IsDist g s p.1 p.2 := by
  intro fuel
  induction fuel with
  | zero =>
    intro Q V D inv p hp
    cases Q with
    | nil => exact inv.dSound p hp
    | cons hd rest => exact inv.dSound p hp
  | succ fuel ih =>
    intro Q V D inv p hp
    cases Q with
    | nil => exact inv.dSound p hp
    | cons hd rest =>
      obtain ⟨n, dq⟩ := hd
      simp only [bfsLoop] at hp
      cases hadj : lookupG g n with
      | none =>
        rw [hadj] at hp
        simp only at hp
        rcases mem_setL_weak hp with h | h
        · exact h ▸ inv.qSound (n, dq) (List.mem_cons_self _ _)
        · exact inv.dSound p h
      | some nbs =>
        rw [hadj] at hp
        exact ih _ _ _ (bfsInv_step inv hadj) p hp

/-- The invariant holds for the initial BFS state seeded in
`get_ISL_dist`. -/
theorem bfsInv_init (g : Graph) (s : Nat) :
    BfsInv g s [(s, 0)] [s] [] := by
  refine
    { startMem := List.mem_singleton_self s
      dSound := by intro p hp; simp at hp
      qSound := ?_
      vChar := ?_
      qNodup := by simp
      qNotDone := by intro p hp; rfl
      qMono := by simp
      qBand := ?_
      doneNbrs := by intro t d h; simp [lookupL] at h
      frontier := ?_ }
  · intro p hp
    rcases List.mem_singleton.mp hp with rfl
    exact isDist_self g s
  · intro v
    constructor
    · intro hv
      exact Or.inr ⟨(s, 0), List.mem_singleton_self _,
        (List.mem_singleton.mp hv).symm⟩
    · rintro (hv | ⟨p, hp, hpv⟩)
      · simp [lookupL] at hv
      · rcases List.mem_singleton.mp hp with rfl
        exact hpv ▸ List.mem_singleton_self _
  · intro hd hhd p hp
    rcases List.mem_singleton.mp hp with rfl
    simp only [List.head?_cons, Option.some.injEq] at hhd
    omega
  · intro u e hu hcond
    have := hcond (s, 0) rfl
    omega

/-- Soundness of one full (or aborted) BFS run from `s`. -/
theorem runBfs_sound (g : Graph) (s : Nat) :
    ∀ p ∈ (runBfs g s).1, IsDist g s p.1 p.2 :=
  bfsLoop_sound (bfsFuel g) [(s, 0)] [s] [] (bfsInv_init g s)

/-- A valid memo answers lookups with exact hop distances. -/
theorem memoValid_lookup {g : Graph} {memo : Memo} (h : MemoValid g memo)
    {s : Nat} {dm : DMap} (hs : lookupL memo s = some dm) {t d : Nat}
    (ht : lookupL dm t = some d) : IsDist g s t d :=
  h (s, dm) (lookupL_mem hs) (t, d) (lookupL_mem ht)

/-- `get_ISL_dist` preserves memo validity (also across aborted BFS
runs, whose partial distance dicts are still sound) and, when it
returns a hop count, that count is the exact hop distance. -/
theorem get_ISL_dist_spec {g : Graph} {memo : Memo}
    (h : MemoValid g memo) (nodeFrom nodeTo : Nat) :
    MemoValid g (get_ISL_dist g memo nodeFrom nodeTo).1 ∧
    ∀ d, (get_ISL_dist g memo nodeFrom nodeTo).2 = .ok d →
      IsDist g nodeFrom nodeTo d := by
  cases hm : lookupL memo nodeFrom with
  | some dm =>
    have heq : get_ISL_dist g memo nodeFrom nodeTo =
        (memo, match lookupL dm nodeTo with
          | some d => .ok d
          | none => .error PyErr.keyError) := by
      unfold get_ISL_dist
      rw [hm]
    rw [heq]
    refine ⟨h, ?_⟩
    intro d hd
    cases ht : lookupL dm nodeTo with
    | some d' =>
      simp only [ht] at hd
      cases hd
      exact memoValid_lookup h hm ht
    | none => simp [ht] at hd
  | none =>
    have heq : get_ISL_dist g memo nodeFrom nodeTo =
        (setL memo nodeFrom (runBfs g nodeFrom).1,
          match (runBfs g nodeFrom).2 with
          | some e => .error e
          | none =>
            match lookupL (runBfs g nodeFrom).1 nodeTo with
            | some d => .ok d
            | none => .error PyErr.keyError) := by
      unfold get_ISL_dist
      rw [hm]
      cases hbr2 : (runBfs g nodeFrom).2 <;> simp [hbr2]
    rw [heq]
    have hvalid' : MemoValid g (setL memo nodeFrom (runBfs g nodeFrom).1) := by
      intro p hp q hq
      rcases mem_setL_weak hp with h' | h'
      · subst h'
        exact runBfs_sound g nodeFrom q hq
      · exact h p h' q hq
    cases hbr : (runBfs g nodeFrom).2 with
    | some e => exact ⟨hvalid', by intro d hd; simp [hbr] at hd⟩
    | none =>
      refine ⟨hvalid', ?_⟩
      intro d hd
      cases ht : lookupL (runBfs g nodeFrom).1 nodeTo with
      | some d' =>
        simp only [hbr, ht] at hd
        cases hd
        exact runBfs_sound g nodeFrom (nodeTo, d) (lookupL_mem ht)
      | none => simp [hbr, ht] at hd

/-! ## Claim theorems -/

/-- **C9** — ISL hop-distance algebra.  For the memoized BFS distance
of `get_ISL_dist` (topology.py lines 110-131): every returned distance
from a node to itself is 0, and — assuming the adjacency loaded from
the ISL file is symmetric — the returned distances for `(a, b)` and
`(b, a)` agree, including when either or both queries are answered
from previously memoized BFS results (any valid memos `memo`,
`memo'`, e.g. one empty and one produced by an earlier query). -/
theorem get_ISL_dist_refl_and_symm (g : Graph) (memo memo' : Memo)
    (a b : Nat) (hsym : SymAdj g) (hv : MemoValid g memo)
    (hv' : MemoValid g memo') :
    (∀ m d, get_ISL_dist g memo a a = (m, .ok d) → d = 0) ∧
    (∀ m₁ m₂ d₁ d₂, get_ISL_dist g memo a b = (m₁, .ok d₁) →
      get_ISL_dist g memo' b a = (m₂, .ok d₂) → d₁ = d₂) := by
  constructor
  · intro m d hmd
    have hdist := (get_ISL_dist_spec hv a a).2 d (by rw [hmd])
    exact isDist_unique hdist (isDist_self g a)
  · intro m₁ m₂ d₁ d₂ h₁ h₂
    have hd₁ := (get_ISL_dist_spec hv a b).2 d₁ (by rw [h₁])
    have hd₂ := (get_ISL_dist_spec hv' b a).2 d₂ (by rw [h₂])
    exact isDist_unique hd₁ (isDist_symm hsym hd₂)

/-- Witness for **C9** on the concrete two-node topology `gEx`:
the hypotheses hold for the memo pair `(memoEx, [])` — `memoEx`
answers the `(0, 1)` query from the memo while `(1, 0)` runs a fresh
BFS — and the instantiated conclusions evaluate as claimed. -/
theorem get_ISL_dist_refl_and_symm_witness :
    SymAdj gEx ∧ MemoValid gEx memoEx ∧ MemoValid gEx [] ∧
    get_ISL_dist gEx memoEx 0 0 = (memoEx, .ok 0) ∧
    get_ISL_dist gEx memoEx 0 1 = (memoEx, .ok 1) ∧
    get_ISL_dist gEx [] 1 0 = ([(1, [(1, 0), (0, 1)])], .ok 1) ∧
    (0 : Nat) = 0 ∧ (1 : Nat) = 1 := by
  refine ⟨by decide, by decide, by decide, rfl, rfl, rfl, ?_, ?_⟩
  · exact (get_ISL_dist_refl_and_symm gEx memoEx [] 0 1 (by decide)
      (by decide) (by decide)).1 memoEx 0 rfl
  · exact (get_ISL_dist_refl_and_symm gEx memoEx [] 0 1 (by decide)
      (by decide) (by decide)).2 memoEx [(1, [(1, 0), (0, 1)])] 1 1
      rfl rfl

/-- **C3** — the code evaluated at the failing input.  On the concrete
topology `gEx` with content `"v"` held by satellite 1,
`get_shortest_replica(0, "v")` returns the bare `int` 1 — the minimum
hop distance over the holder list — and **not** a
`(hops, viaNeighbor)` pair; the caller's unpacking assignment
(modelcdnprovider.py line 219) therefore raises `TypeError`, so the
remote-hit request aborts with `TypeError` before any neighbor
tie-break can run. -/
theorem get_shortest_replica_returns_bare_int :
    get_shortest_replica gEx [("v", [1])] [] 0 "v" = (memoEx, .ok 1) ∧
    pyUnpackPairOfInt 1 = .error .typeError ∧
    processRequest 2 0 stEx "v" =
      ({ stEx with topo := { stEx.topo with isl_dist := memoEx } },
        some .typeError) := by
  refine ⟨rfl, rfl, rfl⟩

/-- **C5** — unknown-API handling on the provider.  The claim says an
API name absent from the dispatch table is logged and `None` is
returned; in the source the `try/except` that did this is commented
out (modelcdnprovider.py lines 115-119), so the dict lookup raises
`KeyError` out of `call_APIs`.  This theorem evaluates the code at the
repository's own failing input: `trafficscheduler.py` line 324 calls
`call_APIs('post_epoch_hook')` on every satellite each tick, and
`post_epoch_hook` is not a key of `__apiHandlerDictionary`. -/
theorem call_APIs_unknown_api_raises (cap me : Nat) (sat : SatState)
    (topo : Topo) (requests : List ContentID) (hop_to_check : Nat) :
    lookupL apiHandlerDictionary "post_epoch_hook" = none ∧
    call_APIs cap me sat topo "post_epoch_hook" requests hop_to_check =
      Sum.inr .keyError :=
  ⟨rfl, rfl⟩

/-- Moving an existing key to the most-recent end does not change the
key set. -/
theorem mem_moveToEnd {cache : List ContentID} {r : ContentID}
    (h : r ∈ cache) (c : ContentID) :
    c ∈ moveToEnd cache r ↔ c ∈ cache := by
  unfold moveToEnd
  by_cases hc : c = r
  · subst hc
    simp [h]
  · rw [List.mem_append]
    simp only [List.mem_singleton, hc, or_false]
    exact List.mem_erase_of_ne hc

/-- **C10** — frame effect of a local hit.  When the request is in the
local cache, `__check_local_cache_only` takes only the hit branch
(modelcdnprovider.py lines 190-195): no exception, the shared replica
directory (and the whole topology state), `uplink_cnt` and all four
ISL counters are unchanged, the cache's key set is unchanged, the
entry is moved to the most-recent end, and `True` is appended to
`hits`. -/
theorem processRequest_hit_frame (cap me : Nat) (st : StepSt)
    (r : ContentID) (h : r ∈ st.sat.cache) :
    (processRequest cap me st r).2 = none ∧
    (processRequest cap me st r).1.topo = st.topo ∧
    (processRequest cap me st r).1.uplink = st.uplink ∧
    (processRequest cap me st r).1.isl = st.isl ∧
    (∀ c, c ∈ (processRequest cap me st r).1.sat.cache ↔
      c ∈ st.sat.cache) ∧
    (processRequest cap me st r).1.sat.cache = moveToEnd st.sat.cache r ∧
    (processRequest cap me st r).1.hits = st.hits ++ [true] := by
  have heq : processRequest cap me st r =
      ({ st with
          sat := { st.sat with cache := moveToEnd st.sat.cache r },
          hits := st.hits ++ [true],
          downlink := st.downlink + 1 }, none) := by
    unfold processRequest
    rw [if_pos h]
  rw [heq]
  exact ⟨rfl, rfl, rfl, rfl, fun c => mem_moveToEnd h c, rfl, rfl⟩

/-- Witness for **C10**: a concrete hit (`"a"` cached on satellite 0
of `stHitEx`) with the instantiated frame facts. -/
theorem processRequest_hit_frame_witness :
    ("a" : ContentID) ∈ stHitEx.sat.cache ∧
    (processRequest 2 0 stHitEx "a").2 = none ∧
    (processRequest 2 0 stHitEx "a").1.topo = stHitEx.topo ∧
    (processRequest 2 0 stHitEx "a").1.sat.cache = ["b", "a"] := by
  have h : ("a" : ContentID) ∈ stHitEx.sat.cache := by decide
  obtain ⟨h1, h2, _, _, _, h6, _⟩ := processRequest_hit_frame 2 0 stHitEx "a" h
  exact ⟨h, h1, h2, by rw [h6]; rfl⟩

/-- The remote-hit branch always raises (the `get_ISL_dist` call can
raise `KeyError`; otherwise `get_shortest_replica` either raises
`KeyError` or returns a bare `int` whose unpacking raises
`TypeError`), and it raises before any mutation of the cache, the
replica directory, the counters or the hits list — only the distance
memo may have been populated. -/
theorem remoteHit_state_frame (cap me : Nat) (st : StepSt)
    (request : ContentID) (holders : List Nat) (hLast : Nat) :
    ((remoteHit cap me st request holders hLast).2).isSome = true ∧
    (remoteHit cap me st request holders hLast).1.sat = st.sat ∧
    (remoteHit cap me st request holders hLast).1.topo.global_cache =
      st.topo.global_cache ∧
    (remoteHit cap me st request holders hLast).1.downlink = st.downlink ∧
    (remoteHit cap me st request holders hLast).1.uplink = st.uplink ∧
    (remoteHit cap me st request holders hLast).1.isl = st.isl ∧
    (remoteHit cap me st request holders hLast).1.hits = st.hits := by
  unfold remoteHit
  cases hg1 : (get_ISL_dist st.topo.isl_graph st.topo.isl_dist me hLast).2 with
  | error e => simp [hg1]
  | ok w =>
    cases hg2 : (get_shortest_replica st.topo.isl_graph st.topo.global_cache
        (get_ISL_dist st.topo.isl_graph st.topo.isl_dist me hLast).1 me
        request).2 with
    | error e => simp [hg1, hg2]
    | ok v => simp [hg1, hg2, pyUnpackPairOfInt]

/-- **C4** counterexample.  Remote hit of `"v"` on satellite 0
(`stEx`): the holder, satellite 1, is the `next` neighbor of 0 and the
shortest replica hop count is 1 ≤ `hop_to_check` = 1, so the claim
predicts `isl_cnt[next] = 1` after the batch; the code instead raises
`TypeError` with every ISL counter still 0 and `uplink_cnt` 0 —
nothing is counted against any link. -/
theorem hop_threshold_counterexample :
    (get_shortest_replica gEx [("v", [1])] [] 0 "v").2 = .ok 1 ∧
    (handle_requests 2 0 { cache := [], cacheSize := 0 }
      { global_cache := [("v", [1])], isl_graph := gEx, isl_dist := [] }
      ["v"] 1).2 = some .typeError ∧
    (handle_requests 2 0 { cache := [], cacheSize := 0 }
      { global_cache := [("v", [1])], isl_graph := gEx, isl_dist := [] }
      ["v"] 1).1.isl = [0, 0, 0, 0] ∧
    (handle_requests 2 0 { cache := [], cacheSize := 0 }
      { global_cache := [("v", [1])], isl_graph := gEx, isl_dist := [] }
      ["v"] 1).1.uplink = 0 :=
  ⟨rfl, rfl, rfl, rfl⟩

/-- **C4** (amended) — ISL-vs-uplink decision.  The `hop_to_check`
value the requester sends with the batch is discarded by the dispatch
wrapper `__handle_requests` (modelcdnprovider.py line 165), so the
handler result is independent of it — the comparison in the handler
is against the hard-coded constant 1 (line 221); and in this source
the comparison is never reached: every remote hit (local miss with a
non-empty holder list) raises before any ISL or uplink accounting,
leaving all counters, the cache and the directory unchanged. -/
theorem remote_fetch_accounting (cap me : Nat) (sat : SatState)
    (topo : Topo) (requests : List ContentID) (h1 h2 : Nat) (st : StepSt)
    (req : ContentID) (hmiss : req ∉ st.sat.cache) (hl : List Nat)
    (hlook : lookupL st.topo.global_cache req = some hl) (hne : hl ≠ []) :
    handle_requests cap me sat topo requests h1 =
      handle_requests cap me sat topo requests h2 ∧
    ((processRequest cap me st req).2).isSome = true ∧
    (processRequest cap me st req).1.isl = st.isl ∧
    (processRequest cap me st req).1.uplink = st.uplink ∧
    (processRequest cap me st req).1.sat = st.sat ∧
    (processRequest cap me st req).1.topo.global_cache =
      st.topo.global_cache := by
  have heq : processRequest cap me st req =
      (match remoteHit cap me st req hl (hl.getLast?.getD me) with
        | (st2, none) => ({ st2 with downlink := st2.downlink + 1 }, none)
        | (st2, some e) => (st2, some e)) := by
    unfold processRequest
    rw [if_neg hmiss, hlook]
    have hc : ¬(some hl = none ∨ ((some hl).getD []).length ≤ 0) := by
      simp only [Option.getD_some]
      push_neg
      exact ⟨Option.some_ne_none hl, List.length_pos.mpr hne⟩
    rw [if_neg hc]
    simp only [Option.getD_some]
  obtain ⟨hsome, hsat, hgc, hdl, hup, hisl, hhits⟩ :=
    remoteHit_state_frame cap me st req hl (hl.getLast?.getD me)
  rcases hr : remoteHit cap me st req hl (hl.getLast?.getD me) with ⟨st2, e2⟩
  rw [hr] at hsome hsat hgc hdl hup hisl hhits
  cases e2 with
  | none => simp at hsome
  | some e =>
    rw [heq, hr]
    exact ⟨rfl, rfl, hisl, hup, hsat, hgc⟩

/-- Witness for **C4** (amended) on the concrete remote hit of
`stEx`. -/
theorem remote_fetch_accounting_witness :
    ("v" : ContentID) ∉ stEx.sat.cache ∧
    lookupL stEx.topo.global_cache "v" = some [1] ∧
    ([1] : List Nat) ≠ [] ∧
    ((processRequest 2 0 stEx "v").2).isSome = true ∧
    (processRequest 2 0 stEx "v").1.isl = stEx.isl ∧
    (processRequest 2 0 stEx "v").1.sat = stEx.sat := by
  have h := remote_fetch_accounting 2 0 { cache := [], cacheSize := 0 }
    { global_cache := [], isl_graph := [], isl_dist := [] } [] 1 2
    stEx "v" (by decide) [1] rfl (by decide)
  exact ⟨by decide, rfl, by decide, h.2.1, h.2.2.1, h.2.2.2.2.1⟩

/-! ## Batch accounting (C2) -/

theorem bfsLoop_no_assert (g : Graph) :
    ∀ (fuel : Nat) (Q : List (Nat × Nat)) (V : List Nat) (D : DMap),
    (bfsLoop g fuel Q V D).2 ≠ some .assertionError := by
  intro fuel
  induction fuel with
  | zero =>
    intro Q V D
    cases Q <;> simp [bfsLoop]
  | succ fuel ih =>
    intro Q V D
    cases Q with
    | nil => simp [bfsLoop]
    | cons hd rest =>
      obtain ⟨n, d⟩ := hd
      simp only [bfsLoop]
      cases hadj : lookupG g n with
      | none => simp
      | some nbs => exact ih _ _ _

theorem get_ISL_dist_no_assert (g : Graph) (memo : Memo) (a b : Nat) :
    (get_ISL_dist g memo a b).2 ≠ .error .assertionError := by
  unfold get_ISL_dist
  cases hm : lookupL memo a with
  | some dm =>
    cases ht : lookupL dm b with
    | some d => simp [ht]
    | none => simp [ht]
  | none =>
    cases hbr : (runBfs g a).2 with
    | some e =>
      simp only [hbr]
      intro hcontra
      simp only [Except.error.injEq] at hcontra
      exact bfsLoop_no_assert g (bfsFuel g) [(a, 0)] [a] []
        (by rw [← hcontra]; exact hbr)
    | none =>
      cases ht : lookupL (runBfs g a).1 b with
      | some d => simp [hbr, ht]
      | none => simp [hbr, ht]

theorem minHopFold_no_assert (dm : DMap) :
    ∀ (m : Nat) (hs : List Nat),
    minHopFold dm m hs ≠ .error .assertionError := by
  intro m hs
  induction hs generalizing m with
  | nil => simp [minHopFold]
  | cons h t ih =>
    simp only [minHopFold]
    cases hl : lookupL dm h with
    | none => simp
    | some hop => exact ih _

theorem get_shortest_replica_no_assert (g : Graph)
    (gc : List (ContentID × List Nat)) (memo : Memo) (a : Nat)
    (request : ContentID) :
    (get_shortest_replica g gc memo a request).2 ≠
      .error .assertionError := by
  unfold get_shortest_replica
  cases hm : lookupL memo a with
  | some dm =>
    simp only
    cases hgc : lookupL gc request with
    | none => simp
    | some holders =>
      cases hma : lookupL memo a with
      | none => simp
      | some dm' => exact minHopFold_no_assert dm' 100000 holders
  | none =>
    simp only
    cases hr : (get_ISL_dist g memo a a).2 with
    | error e =>
      simp only
      intro hcontra
      simp only [Except.error.injEq] at hcontra
      exact get_ISL_dist_no_assert g memo a a (by rw [hr, hcontra])
    | ok w =>
      simp only
      cases hgc : lookupL gc request with
      | none => simp
      | some holders =>
        cases hma : lookupL (get_ISL_dist g memo a a).1 a with
        | none => simp
        | some dm' => exact minHopFold_no_assert dm' 100000 holders

theorem admitRequest_no_assert (cap me : Nat) (st : StepSt)
    (request : ContentID) :
    (admitRequest cap me st request).2 ≠ some .assertionError := by
  unfold admitRequest
  by_cases hsz : st.sat.cacheSize < cap
  · simp [hsz]
  · simp only [hsz, if_false]
    cases hcache : st.sat.cache with
    | nil => simp [lruStrategy]
    | cons v rest =>
      simp only [lruStrategy]
      cases hgc : lookupL st.topo.global_cache v with
      | none => simp [hgc]
      | some holders =>
        by_cases hmem : me ∈ holders
        · simp [hgc, hmem]
        · simp [hgc, hmem]

theorem remoteHit_no_assert (cap me : Nat) (st : StepSt)
    (request : ContentID) (holders : List Nat) (hLast : Nat) :
    (remoteHit cap me st request holders hLast).2 ≠
      some .assertionError := by
  unfold remoteHit
  cases hg1 : (get_ISL_dist st.topo.isl_graph st.topo.isl_dist me hLast).2 with
  | error e =>
    simp only [hg1]
    intro hcontra
    simp only [Option.some.injEq] at hcontra
    exact get_ISL_dist_no_assert st.topo.isl_graph st.topo.isl_dist me hLast
      (by rw [hg1, hcontra])
  | ok w =>
    simp only [hg1]
    cases hg2 : (get_shortest_replica st.topo.isl_graph st.topo.global_cache
        (get_ISL_dist st.topo.isl_graph st.topo.isl_dist me hLast).1 me
        request).2 with
    | error e =>
      simp only [hg2]
      intro hcontra
      simp only [Option.some.injEq] at hcontra
      exact get_shortest_replica_no_assert st.topo.isl_graph
        st.topo.global_cache
        (get_ISL_dist st.topo.isl_graph st.topo.isl_dist me hLast).1 me
        request (by rw [hg2, hcontra])
    | ok v => simp [hg2, pyUnpackPairOfInt]

theorem processRequest_no_assert (cap me : Nat) (st : StepSt)
    (request : ContentID) :
    (processRequest cap me st request).2 ≠ some .assertionError := by
  unfold processRequest
  by_cases hhit : request ∈ st.sat.cache
  · simp [hhit]
  · simp only [hhit, if_false]
    by_cases hcond : lookupL st.topo.global_cache request = none ∨
        ((lookupL st.topo.global_cache request).getD []).length ≤ 0
    · simp only [hcond, if_true]
      rcases ha : admitRequest cap me
          { st with
            topo := { st.topo with
              global_cache := setL st.topo.global_cache request [me] },
            uplink := st.uplink + 1 } request with ⟨st2, e2⟩
      cases e2 with
      | none => simp [ha]
      | some e =>
        simp only [ha]
        intro hcontra
        simp only [Option.some.injEq] at hcontra
        exact admitRequest_no_assert cap me
          { st with
            topo := { st.topo with
              global_cache := setL st.topo.global_cache request [me] },
            uplink := st.uplink + 1 } request (by rw [ha, hcontra])
    · simp only [hcond, if_false]
      rcases hr : remoteHit cap me st request
          ((lookupL st.topo.global_cache request).getD [])
          ((((lookupL st.topo.global_cache request).getD
            []).getLast?).getD me) with ⟨st2, e2⟩
      cases e2 with
      | none => simp [hr]
      | some e =>
        simp only [hr]
        intro hcontra
        simp only [Option.some.injEq] at hcontra
        exact remoteHit_no_assert cap me st request
          ((lookupL st.topo.global_cache request).getD [])
          ((((lookupL st.topo.global_cache request).getD
            []).getLast?).getD me) (by rw [hr, hcontra])

theorem handleRequestsLoop_no_assert (cap me : Nat) :
    ∀ (reqs : List ContentID) (st : StepSt),
    (handleRequestsLoop cap me reqs st).2 ≠ some .assertionError := by
  intro reqs
  induction reqs with
  | nil => intro st; simp [handleRequestsLoop]
  | cons r rs ih =>
    intro st
    simp only [handleRequestsLoop]
    rcases hp : processRequest cap me st r with ⟨st1, e1⟩
    cases e1 with
    | none => exact ih st1
    | some e =>
      simp only [ne_eq, Option.some.injEq]
      intro hcontra
      exact processRequest_no_assert cap me st r (by rw [hp, hcontra])

theorem trueHits_append_true (l : List Bool) :
    trueHits (l ++ [true]) = trueHits l + 1 := by
  simp [trueHits, List.filter_append]

theorem trueHits_append_false (l : List Bool) :
    trueHits (l ++ [false]) = trueHits l := by
  simp [trueHits, List.filter_append]

theorem admitRequest_ok (cap me : Nat) (st st' : StepSt)
    (request : ContentID) (h : admitRequest cap me st request = (st', none)) :
    st'.hits = st.hits ++ [false] ∧ st'.downlink = st.downlink ∧
    st'.uplink = st.uplink ∧ st'.isl = st.isl := by
  unfold admitRequest at h
  dsimp only at h
  split at h
  · have h1 := congrArg Prod.fst h
    simp only at h1
    rw [← h1]
    exact ⟨rfl, rfl, rfl, rfl⟩
  · split at h
    · have := congrArg Prod.snd h
      simp at this
    · split at h
      · have := congrArg Prod.snd h
        simp at this
      · split at h
        · have h1 := congrArg Prod.fst h
          simp only at h1
          rw [← h1]
          exact ⟨rfl, rfl, rfl, rfl⟩
        · have := congrArg Prod.snd h
          simp at this

theorem processRequest_ok_counts (cap me : Nat) (st st' : StepSt)
    (req : ContentID) (h : processRequest cap me st req = (st', none)) :
    st'.downlink = st.downlink + 1 ∧ st'.isl = st.isl ∧
    ((st'.hits = st.hits ++ [true] ∧ st'.uplink = st.uplink) ∨
     (st'.hits = st.hits ++ [false] ∧ st'.uplink = st.uplink + 1)) := by
  unfold processRequest at h
  dsimp only at h
  split at h
  · have h1 := congrArg Prod.fst h
    simp only at h1
    rw [← h1]
    exact ⟨rfl, rfl, Or.inl ⟨rfl, rfl⟩⟩
  · split at h
    · split at h
      next st2 heq =>
        have h1 := congrArg Prod.fst h
        simp only at h1
        obtain ⟨hh, hd, hu, hi⟩ := admitRequest_ok cap me _ st2 req heq
        rw [← h1]
        refine ⟨by rw [hd], by rw [hi], Or.inr ⟨by rw [hh], by rw [hu]⟩⟩
      next st2 e heq =>
        have := congrArg Prod.snd h
        simp at this
    · split at h
      next st2 heq =>
        have hs := (remoteHit_state_frame cap me st req
          ((lookupL st.topo.global_cache req).getD [])
          ((((lookupL st.topo.global_cache req).getD
            []).getLast?).getD me)).1
        rw [heq] at hs
        simp at hs
      next st2 e heq =>
        have := congrArg Prod.snd h
        simp at this

theorem handleRequestsLoop_ok_counts (cap me : Nat) :
    ∀ (reqs : List ContentID) (st st' : StepSt),
    handleRequestsLoop cap me reqs st = (st', none) →
    st'.downlink = st.downlink + reqs.length ∧ st'.isl = st.isl ∧
    st'.uplink + trueHits st'.hits =
      st.uplink + trueHits st.hits + reqs.length := by
  intro reqs
  induction reqs with
  | nil =>
    intro st st' h
    simp only [handleRequestsLoop] at h
    have h1 := congrArg Prod.fst h
    simp only at h1
    rw [← h1]
    exact ⟨by simp, rfl, by simp⟩
  | cons r rs ih =>
    intro st st' h
    simp only [handleRequestsLoop] at h
    rcases hp : processRequest cap me st r with ⟨st1, e1⟩
    rw [hp] at h
    cases e1 with
    | some e =>
      have := congrArg Prod.snd h
      simp at this
    | none =>
      obtain ⟨hd, hi, hcases⟩ := processRequest_ok_counts cap me st st1 r hp
      obtain ⟨hd', hi', hu'⟩ := ih st1 st' h
      refine ⟨by rw [hd', hd, List.length_cons]; omega,
        by rw [hi', hi], ?_⟩
      rcases hcases with ⟨hh, hu⟩ | ⟨hh, hu⟩
      · have ht : trueHits st1.hits = trueHits st.hits + 1 := by
          rw [hh, trueHits_append_true]
        rw [List.length_cons]
        rw [ht, hu] at hu'
        omega
      · have ht : trueHits st1.hits = trueHits st.hits := by
          rw [hh, trueHits_append_false]
        rw [List.length_cons]
        rw [ht, hu] at hu'
        omega

/-- **C2** — batch accounting sanity.  For every request batch and
provider/directory state: when the batch completes, the number of
`True` entries of the returned `hits` list equals
`downlink_cnt − uplink_cnt − Σ isl_cnt` (with `downlink_cnt` equal to
the batch length); and the `assert` failure branch of
`__check_local_cache_only` (modelcdnprovider.py lines 246-247) is
unreachable — the handler never raises `AssertionError` (every batch
either completes with the identity holding, or aborts earlier with a
`KeyError`/`ValueError`/`TypeError` raised before the asserts). -/
theorem batch_accounting (cap me : Nat) (sat : SatState) (topo : Topo)
    (requests : List ContentID) :
    (check_local_cache_only cap me sat topo requests).2 ≠
      some .assertionError ∧
    ((check_local_cache_only cap me sat topo requests).2 = none →
      ((trueHits (check_local_cache_only cap me sat topo
          requests).1.hits : ℤ) =
        ((check_local_cache_only cap me sat topo requests).1.downlink : ℤ) -
        ((check_local_cache_only cap me sat topo requests).1.uplink : ℤ) -
        (islSum (check_local_cache_only cap me sat topo
          requests).1.isl : ℤ)) ∧
      (check_local_cache_only cap me sat topo requests).1.downlink =
        requests.length) := by
  unfold check_local_cache_only
  dsimp only
  split
  next stf e heq =>
    constructor
    · simp only [ne_eq, Option.some.injEq]
      intro hcontra
      exact handleRequestsLoop_no_assert cap me requests _
        (by rw [heq, hcontra])
    · intro hcontra
      simp at hcontra
  next stf heq =>
    obtain ⟨hd, hi, hu⟩ := handleRequestsLoop_ok_counts cap me requests _
      stf heq
    simp only at hd hi hu
    rw [Nat.zero_add] at hd
    have hislsum : islSum stf.isl = 0 := by rw [hi]; rfl
    have htr : trueHits ([] : List Bool) = 0 := rfl
    rw [htr, Nat.add_zero, Nat.zero_add] at hu
    have hassert1 : requests.length = stf.downlink := hd.symm
    rw [if_pos hassert1]
    have hassert2 : (trueHits stf.hits : ℤ) =
        (stf.downlink : ℤ) - (stf.uplink : ℤ) - (islSum stf.isl : ℤ) := by
      rw [hislsum, hd]
      push_cast
      omega
    rw [if_pos hassert2]
    exact ⟨by simp, fun _ => ⟨hassert2, hd⟩⟩

/-- Witness for **C2**: the spec §8 S1-like batch
`["x","y","x","z","y"]` on a lone satellite with capacity 2 and an
empty directory completes with one `True` hit and the counter identity
`1 = 5 − 4 − 0`. -/
theorem batch_accounting_witness :
    (check_local_cache_only 2 7 { cache := [], cacheSize := 0 }
      { global_cache := [], isl_graph := [], isl_dist := [] }
      ["x", "y", "x", "z", "y"]).2 = none ∧
    ((trueHits (check_local_cache_only 2 7 { cache := [], cacheSize := 0 }
        { global_cache := [], isl_graph := [], isl_dist := [] }
        ["x", "y", "x", "z", "y"]).1.hits : ℤ) =
      ((check_local_cache_only 2 7 { cache := [], cacheSize := 0 }
        { global_cache := [], isl_graph := [], isl_dist := [] }
        ["x", "y", "x", "z", "y"]).1.downlink : ℤ) -
      ((check_local_cache_only 2 7 { cache := [], cacheSize := 0 }
        { global_cache := [], isl_graph := [], isl_dist := [] }
        ["x", "y", "x", "z", "y"]).1.uplink : ℤ) -
      (islSum (check_local_cache_only 2 7 { cache := [], cacheSize := 0 }
        { global_cache := [], isl_graph := [], isl_dist := [] }
        ["x", "y", "x", "z", "y"]).1.isl : ℤ)) := by
  have h := batch_accounting 2 7 { cache := [], cacheSize := 0 }
    { global_cache := [], isl_graph := [], isl_dist := [] }
    ["x", "y", "x", "z", "y"]
  exact ⟨rfl, (h.2 rfl).1⟩

/-! ## Cache-size bound (C6) -/

theorem admitRequest_size (cap me : Nat) (st : StepSt) (request : ContentID)
    (hsz : st.sat.cacheSize = st.sat.cache.length)
    (hle : st.sat.cache.length ≤ cap) :
    (admitRequest cap me st request).1.sat.cache.length ≤ cap ∧
    ((admitRequest cap me st request).2 = none →
      (admitRequest cap me st request).1.sat.cacheSize =
        (admitRequest cap me st request).1.sat.cache.length) := by
  unfold admitRequest
  dsimp only
  split
  next hlt =>
    constructor
    · simp only [List.length_append, List.length_singleton]
      omega
    · intro _
      simp only [List.length_append, List.length_singleton]
      omega
  next hge =>
    cases hcache : st.sat.cache with
    | nil =>
      simp only [lruStrategy]
      rw [hcache] at hle
      constructor
      · simp only [hcache, List.length_nil]
        omega
      · intro hcontra
        simp at hcontra
    | cons v rest =>
      simp only [lruStrategy]
      rw [hcache] at hsz hle
      simp only [List.length_cons] at hsz hle
      split
      · constructor
        · simp only
          omega
        · intro hcontra
          simp at hcontra
      next holders hgc =>
        split
        next hmem =>
          constructor
          · simp only [List.length_append, List.length_singleton]
            omega
          · intro _
            simp only [List.length_append, List.length_singleton]
            omega
        next hmem =>
          constructor
          · simp only
            omega
          · intro hcontra
            simp at hcontra

theorem processRequest_size (cap me : Nat) (st : StepSt) (req : ContentID)
    (hsz : st.sat.cacheSize = st.sat.cache.length)
    (hle : st.sat.cache.length ≤ cap) :
    (processRequest cap me st req).1.sat.cache.length ≤ cap ∧
    ((processRequest cap me st req).2 = none →
      (processRequest cap me st req).1.sat.cacheSize =
        (processRequest cap me st req).1.sat.cache.length) := by
  unfold processRequest
  dsimp only
  split
  next hhit =>
    have hlen : (moveToEnd st.sat.cache req).length = st.sat.cache.length := by
      unfold moveToEnd
      rw [List.length_append, List.length_singleton,
        List.length_erase_of_mem hhit]
      have : 0 < st.sat.cache.length := List.length_pos.mpr
        (List.ne_nil_of_mem hhit)
      omega
    exact ⟨by rw [hlen]; exact hle, fun _ => by rw [hlen]; exact hsz⟩
  next hhit =>
    split
    · split
      next st2 heq =>
        obtain ⟨hb, hs⟩ := admitRequest_size cap me
          { st with
            topo := { st.topo with
              global_cache := setL st.topo.global_cache req [me] },
            uplink := st.uplink + 1 } req hsz hle
        rw [heq] at hb hs
        exact ⟨hb, fun _ => hs rfl⟩
      next st2 e heq =>
        obtain ⟨hb, hs⟩ := admitRequest_size cap me
          { st with
            topo := { st.topo with
              global_cache := setL st.topo.global_cache req [me] },
            uplink := st.uplink + 1 } req hsz hle
        rw [heq] at hb
        exact ⟨hb, fun hcontra => by simp at hcontra⟩
    · split
      next st2 heq =>
        have hs := (remoteHit_state_frame cap me st req
          ((lookupL st.topo.global_cache req).getD [])
          ((((lookupL st.topo.global_cache req).getD
            []).getLast?).getD me)).1
        rw [heq] at hs
        simp at hs
      next st2 e heq =>
        have hframe := (remoteHit_state_frame cap me st req
          ((lookupL st.topo.global_cache req).getD [])
          ((((lookupL st.topo.global_cache req).getD
            []).getLast?).getD me)).2.1
        rw [heq] at hframe
        simp only at hframe
        constructor
        · rw [hframe]
          exact hle
        · intro hcontra
          simp at hcontra

theorem handleRequestsLoop_size (cap me : Nat) :
    ∀ (reqs : List ContentID) (st : StepSt),
    st.sat.cacheSize = st.sat.cache.length → st.sat.cache.length ≤ cap →
    (handleRequestsLoop cap me reqs st).1.sat.cache.length ≤ cap := by
  intro reqs
  induction reqs with
  | nil =>
    intro st _ hle
    exact hle
  | cons r rs ih =>
    intro st hsz hle
    simp only [handleRequestsLoop]
    rcases hp : processRequest cap me st r with ⟨st1, e1⟩
    obtain ⟨hb, hs⟩ := processRequest_size cap me st r hsz hle
    rw [hp] at hb hs
    cases e1 with
    | none => exact ih st1 (hs rfl) hb
    | some e => exact hb

theorem admitRequest_evict (cap me : Nat) (st : StepSt) (req : ContentID)
    (st2 : StepSt) (hcap : ¬ st.sat.cacheSize < cap)
    (h : admitRequest cap me st req = (st2, none)) :
    st2.sat.cache = st.sat.cache.tail ++ [req] ∧
    st2.sat.cacheSize = st.sat.cacheSize := by
  unfold admitRequest at h
  dsimp only at h
  rw [if_neg hcap] at h
  cases hcache : st.sat.cache with
  | nil =>
    rw [hcache] at h
    simp [lruStrategy] at h
  | cons v rest =>
    rw [hcache] at h
    simp only [lruStrategy] at h
    split at h
    · have := congrArg Prod.snd h
      simp at this
    · split at h
      next hmem =>
        have h1 := congrArg Prod.fst h
        simp only at h1
        rw [← h1]
        exact ⟨rfl, rfl⟩
      next hmem =>
        have := congrArg Prod.snd h
        simp at this

/-- **C6** — bounded cache.  For every capacity, after every
`HandleRequests` batch (whether it completed or aborted on an
exception), the number of entries in the local cache is at most the
capacity — provided the entry count and the tracked `__cacheSize`
agreed and were within capacity beforehand, as they are from
construction on.  And when an admission completes with the tracked
size at capacity, exactly one victim — the least recent entry — is
removed before the new key is appended, leaving the entry count at
capacity. -/
theorem bounded_cache (cap me : Nat) (sat : SatState) (topo : Topo)
    (requests : List ContentID) (st : StepSt) (req : ContentID)
    (st2 : StepSt) (hsz : sat.cacheSize = sat.cache.length)
    (hle : sat.cache.length ≤ cap)
    (hsz' : st.sat.cacheSize = st.sat.cache.length)
    (hcap : st.sat.cacheSize = cap) (hmiss : req ∉ st.sat.cache)
    (hok : processRequest cap me st req = (st2, none)) :
    (check_local_cache_only cap me sat topo requests).1.sat.cache.length ≤
      cap ∧
    st2.sat.cache = st.sat.cache.tail ++ [req] ∧
    st2.sat.cache.length = cap := by
  have hbound : (check_local_cache_only cap me sat topo
      requests).1.sat.cache.length ≤ cap := by
    unfold check_local_cache_only
    dsimp only
    split
    next stf e heq =>
      have := handleRequestsLoop_size cap me requests
        { sat := sat, topo := topo, downlink := 0, uplink := 0,
          isl := [0, 0, 0, 0], hits := [] } hsz hle
      rw [heq] at this
      exact this
    next stf heq =>
      have := handleRequestsLoop_size cap me requests
        { sat := sat, topo := topo, downlink := 0, uplink := 0,
          isl := [0, 0, 0, 0], hits := [] } hsz hle
      rw [heq] at this
      split
      · split
        · exact this
        · exact this
      · exact this
  have hnotlt : ¬ st.sat.cacheSize < cap := by omega
  have hevict : st2.sat.cache = st.sat.cache.tail ++ [req] := by
    unfold processRequest at hok
    dsimp only at hok
    rw [if_neg hmiss] at hok
    split at hok
    · split at hok
      next st3 heq =>
        have h1 := congrArg Prod.fst hok
        simp only at h1
        obtain ⟨hc, _⟩ := admitRequest_evict cap me
          { st with
            topo := { st.topo with
              global_cache := setL st.topo.global_cache req [me] },
            uplink := st.uplink + 1 } req st3 hnotlt heq
        rw [← h1]
        exact hc
      next st3 e heq =>
        have := congrArg Prod.snd hok
        simp at this
    · split at hok
      next st3 heq =>
        have hs := (remoteHit_state_frame cap me st req
          ((lookupL st.topo.global_cache req).getD [])
          ((((lookupL st.topo.global_cache req).getD
            []).getLast?).getD me)).1
        rw [heq] at hs
        simp at hs
      next st3 e heq =>
        have := congrArg Prod.snd hok
        simp at this
  have hne : st.sat.cache ≠ [] := by
    intro hnil
    rw [hnil] at hsz'
    simp at hsz'
    -- at capacity with an empty cache means cap = 0, and then the
    -- eviction raises KeyError, contradicting a completed admission
    have hcap0 : cap = 0 := by omega
    unfold processRequest at hok
    dsimp only at hok
    rw [if_neg hmiss] at hok
    split at hok
    · split at hok
      next st3 heq =>
        unfold admitRequest at heq
        dsimp only at heq
        rw [if_neg (by omega)] at heq
        rw [hnil] at heq
        simp [lruStrategy] at heq
      next st3 e heq =>
        have := congrArg Prod.snd hok
        simp at this
    · split at hok
      next st3 heq =>
        have hs := (remoteHit_state_frame cap me st req
          ((lookupL st.topo.global_cache req).getD [])
          ((((lookupL st.topo.global_cache req).getD
            []).getLast?).getD me)).1
        rw [heq] at hs
        simp at hs
      next st3 e heq =>
        have := congrArg Prod.snd hok
        simp at this
  refine ⟨hbound, hevict, ?_⟩
  rw [hevict, List.length_append, List.length_singleton,
    List.length_tail]
  have : 0 < st.sat.cache.length := List.length_pos.mpr hne
  omega

/-- Witness for **C6**: the spec §8 S4 scenario — capacity 1, request
`"a"` already admitted, then a miss on `"b"` evicts exactly the one
victim `"a"` before inserting `"b"`, and the batch `["a", "b"]` from
empty leaves one entry ≤ capacity. -/
theorem bounded_cache_witness :
    (check_local_cache_only 1 5 { cache := [], cacheSize := 0 }
      { global_cache := [], isl_graph := [], isl_dist := [] }
      ["a", "b"]).1.sat.cache.length ≤ 1 ∧
    (["b"] : List ContentID) = (["a"] : List ContentID).tail ++ ["b"] ∧
    (["b"] : List ContentID).length = 1 := by
  have h := bounded_cache 1 5 { cache := [], cacheSize := 0 }
    { global_cache := [], isl_graph := [], isl_dist := [] } ["a", "b"]
    { sat := { cache := ["a"], cacheSize := 1 },
      topo := { global_cache := [("a", [5])], isl_graph := [],
                isl_dist := [] },
      downlink := 0, uplink := 0, isl := [0, 0, 0, 0], hits := [] } "b"
    { sat := { cache := ["b"], cacheSize := 1 },
      topo := { global_cache := [("a", []), ("b", [5])], isl_graph := [],
                isl_dist := [] },
      downlink := 1, uplink := 1, isl := [0, 0, 0, 0], hits := [false] }
    rfl (by decide) rfl rfl (by decide) rfl
  exact ⟨h.1, h.2.1, h.2.2⟩

/-! ## LRU recency (C7) -/

theorem admitRequest_cache_append (cap me : Nat) (st : StepSt)
    (req : ContentID) (st2 : StepSt)
    (h : admitRequest cap me st req = (st2, none)) :
    st2.sat.cache = st.sat.cache ++ [req] ∨
    st2.sat.cache = st.sat.cache.tail ++ [req] := by
  unfold admitRequest at h
  dsimp only at h
  split at h
  · have h1 := congrArg Prod.fst h
    simp only at h1
    rw [← h1]
    exact Or.inl rfl
  · cases hcache : st.sat.cache with
    | nil =>
      rw [hcache] at h
      simp [lruStrategy] at h
    | cons v rest =>
      rw [hcache] at h
      simp only [lruStrategy] at h
      split at h
      · have := congrArg Prod.snd h
        simp at this
      · split at h
        next hmem =>
          have h1 := congrArg Prod.fst h
          simp only at h1
          rw [← h1]
          exact Or.inr rfl
        next hmem =>
          have := congrArg Prod.snd h
          simp at this

/-- **C7** — LRU recency law.  On a local cache hit the entry is moved
to the most-recent end of the recency order
(`self.__cache.pop(request); self.__cache[request] = True`,
modelcdnprovider.py lines 193-194); a missed key that is admitted is
inserted at the most-recent end (after an eviction of the oldest entry
when at capacity); and for request sequence `["a", "b", "c", "a"]`
with capacity 3 starting from an empty cache and empty directory, the
final recency order (oldest first) is `["b", "c", "a"]`. -/
theorem lru_recency (cap me : Nat) (st : StepSt) (req : ContentID)
    (st2 : StepSt) :
    (req ∈ st.sat.cache →
      (processRequest cap me st req).1.sat.cache =
        st.sat.cache.erase req ++ [req]) ∧
    (req ∉ st.sat.cache → processRequest cap me st req = (st2, none) →
      st2.sat.cache = st.sat.cache ++ [req] ∨
      st2.sat.cache = st.sat.cache.tail ++ [req]) ∧
    (check_local_cache_only 3 7 { cache := [], cacheSize := 0 }
      { global_cache := [], isl_graph := [], isl_dist := [] }
      ["a", "b", "c", "a"]).1.sat.cache = ["b", "c", "a"] := by
  refine ⟨?_, ?_, rfl⟩
  · intro hhit
    have := (processRequest_hit_frame cap me st req hhit).2.2.2.2.2.1
    rw [this]
    rfl
  · intro hmiss hok
    unfold processRequest at hok
    dsimp only at hok
    rw [if_neg hmiss] at hok
    split at hok
    · split at hok
      next st3 heq =>
        have h1 := congrArg Prod.fst hok
        simp only at h1
        have := admitRequest_cache_append cap me
          { st with
            topo := { st.topo with
              global_cache := setL st.topo.global_cache req [me] },
            uplink := st.uplink + 1 } req st3 heq
        rw [← h1]
        exact this
      next st3 e heq =>
        have := congrArg Prod.snd hok
        simp at this
    · split at hok
      next st3 heq =>
        have hs := (remoteHit_state_frame cap me st req
          ((lookupL st.topo.global_cache req).getD [])
          ((((lookupL st.topo.global_cache req).getD
            []).getLast?).getD me)).1
        rw [heq] at hs
        simp at hs
      next st3 e heq =>
        have := congrArg Prod.snd hok
        simp at this

/-- Witness for **C7**: a concrete hit (on `stHitEx`) moving `"a"` to
the most-recent end, and a concrete admission (miss on `"c"` at
capacity) inserting at the most-recent end. -/
theorem lru_recency_witness :
    ("a" : ContentID) ∈ stHitEx.sat.cache ∧
    (processRequest 2 0 stHitEx "a").1.sat.cache =
      stHitEx.sat.cache.erase "a" ++ ["a"] ∧
    ("c" : ContentID) ∉ stHitEx.sat.cache ∧
    ((["b", "c"] : List ContentID) = stHitEx.sat.cache ++ ["c"] ∨
      (["b", "c"] : List ContentID) = stHitEx.sat.cache.tail ++ ["c"]) := by
  have h := lru_recency 2 0 stHitEx "c"
    { sat := { cache := ["b", "c"], cacheSize := 2 },
      topo := { global_cache := [("a", []), ("b", [0]), ("c", [0])],
                isl_graph := gEx, isl_dist := [] },
      downlink := 1, uplink := 1, isl := [0, 0, 0, 0], hits := [false] }
  have hhit := lru_recency 2 0 stHitEx "a"
    { sat := { cache := ["b", "c"], cacheSize := 2 },
      topo := { global_cache := [("a", []), ("b", [0]), ("c", [0])],
                isl_graph := gEx, isl_dist := [] },
      downlink := 1, uplink := 1, isl := [0, 0, 0, 0], hits := [false] }
  exact ⟨by decide, hhit.1 (by decide), by decide,
    h.2.1 (by decide) rfl⟩

/-! ## Cache/directory consistency (C1) -/

theorem holdersOf_setL_self (gc : List (ContentID × List Nat))
    (c : ContentID) (l : List Nat) : holdersOf (setL gc c l) c = l := by
  unfold holdersOf
  rw [lookupL_setL_self]
  rfl

theorem holdersOf_setL_ne (gc : List (ContentID × List Nat))
    {c c' : ContentID} (l : List Nat) (h : c' ≠ c) :
    holdersOf (setL gc c l) c' = holdersOf gc c' := by
  unfold holdersOf
  rw [lookupL_setL_ne gc l h]

theorem holdersOf_empty_of_cond {gc : List (ContentID × List Nat)}
    {req : ContentID}
    (hcond : lookupL gc req = none ∨
      ((lookupL gc req).getD []).length ≤ 0) :
    holdersOf gc req = [] := by
  unfold holdersOf
  rcases hcond with h | h
  · rw [h]; rfl
  · cases hl : lookupL gc req with
    | none => rfl
    | some l =>
      rw [hl] at h
      simp only [Option.getD_some] at h ⊢
      exact List.length_eq_zero.mp (Nat.le_zero.mp h)

theorem holdersOf_mem_of_lookup {gc : List (ContentID × List Nat)}
    {c : ContentID} {l : List Nat} (h : lookupL gc c = some l) :
    holdersOf gc c = l := by
  unfold holdersOf
  rw [h]
  rfl

theorem updateSat_map_fst (sats : List (Nat × List ContentID)) (me : Nat)
    (c : List ContentID) :
    (updateSat sats me c).map Prod.fst = sats.map Prod.fst := by
  unfold updateSat
  rw [List.map_map]
  refine List.map_congr_left ?_
  intro p _
  by_cases hp : p.1 = me
  · simp [hp]
  · simp [hp]

theorem updateSat_updateSat (sats : List (Nat × List ContentID)) (me : Nat)
    (c1 c2 : List ContentID) :
    updateSat (updateSat sats me c1) me c2 = updateSat sats me c2 := by
  unfold updateSat
  rw [List.map_map]
  refine List.map_congr_left ?_
  intro p _
  by_cases hp : p.1 = me
  · simp [hp]
  · simp [hp]

theorem nodup_key_unique {α β : Type} {l : List (α × β)} {p q : α × β}
    (hnd : (l.map Prod.fst).Nodup) (hp : p ∈ l) (hq : q ∈ l)
    (hk : p.1 = q.1) : p = q := by
  induction l with
  | nil => simp at hp
  | cons x rest ih =>
    rw [List.map_cons] at hnd
    have hx : x.1 ∉ rest.map Prod.fst := (List.nodup_cons.mp hnd).1
    rcases List.mem_cons.mp hp with hp' | hp' <;>
      rcases List.mem_cons.mp hq with hq' | hq'
    · rw [hp', hq']
    · subst hp'
      exact absurd (hk ▸ List.mem_map_of_mem Prod.fst hq') hx
    · subst hq'
      exact absurd (hk ▸ List.mem_map_of_mem Prod.fst hp') hx
    · exact ih (List.nodup_cons.mp hnd).2 hp' hq'

theorem updateSat_self {sats : List (Nat × List ContentID)} {me : Nat}
    {c : List ContentID} (hnd : (sats.map Prod.fst).Nodup)
    (hmem : (me, c) ∈ sats) : updateSat sats me c = sats := by
  unfold updateSat
  have h1 : sats.map (fun p => if p.1 = me then (p.1, c) else p) =
      sats.map id := by
    refine List.map_congr_left ?_
    intro p hp
    by_cases hk : p.1 = me
    · have hpc : p = (me, c) := nodup_key_unique hnd hp hmem (by rw [hk])
      rw [if_pos hk, hpc]
      rfl
    · rw [if_neg hk]
      rfl
  rw [h1, List.map_id]

theorem mem_updateSat_fwd {sats : List (Nat × List ContentID)} {me : Nat}
    {c : List ContentID} {p : Nat × List ContentID}
    (h : p ∈ updateSat sats me c) :
    p = (me, c) ∨ (p ∈ sats ∧ p.1 ≠ me) := by
  obtain ⟨q, hq, hpq⟩ := List.mem_map.mp h
  by_cases hk : q.1 = me
  · left
    rw [← hpq]
    simp [hk]
  · right
    rw [← hpq]
    simp only [hk, if_false]
    exact ⟨hq, hk⟩

theorem mem_updateSat_self {sats : List (Nat × List ContentID)} {me : Nat}
    (c : List ContentID) {x : List ContentID} (hmem : (me, x) ∈ sats) :
    (me, c) ∈ updateSat sats me c := by
  refine List.mem_map.mpr ⟨(me, x), hmem, ?_⟩
  simp

theorem mem_updateSat_other {sats : List (Nat × List ContentID)} {me : Nat}
    (c : List ContentID) {p : Nat × List ContentID} (hp : p ∈ sats)
    (hne : p.1 ≠ me) : p ∈ updateSat sats me c := by
  refine List.mem_map.mpr ⟨p, hp, ?_⟩
  simp [hne]

theorem cdnInv_hit {gc : List (ContentID × List Nat)}
    {sats : List (Nat × List ContentID)} {me : Nat}
    {cache : List ContentID} (hinv : CdnInv gc sats)
    (hmem : (me, cache) ∈ sats) (req : ContentID) (hhit : req ∈ cache) :
    CdnInv gc (updateSat sats me (moveToEnd cache req)) := by
  obtain ⟨hGc, hSat, hCNd, hC2D, hD2C⟩ := hinv
  have hmemNd : cache.Nodup := hCNd (me, cache) hmem
  have hmoveNd : (moveToEnd cache req).Nodup := by
    unfold moveToEnd
    refine List.Nodup.append (hmemNd.erase req) (List.nodup_singleton _) ?_
    intro x hx hx'
    rw [List.mem_singleton] at hx'
    subst hx'
    exact (hmemNd.mem_erase_iff.mp hx).1 rfl
  refine ⟨hGc, by rw [updateSat_map_fst]; exact hSat, ?_, ?_, ?_⟩
  · intro p hp
    rcases mem_updateSat_fwd hp with hp' | ⟨hp', _⟩
    · rw [hp']
      exact hmoveNd
    · exact hCNd p hp'
  · intro p hp c hc
    rcases mem_updateSat_fwd hp with hp' | ⟨hp', _⟩
    · subst hp'
      exact hC2D (me, cache) hmem c ((mem_moveToEnd hhit c).mp hc)
    · exact hC2D p hp' c hc
  · intro q hq p hp hpq
    rcases mem_updateSat_fwd hp with hp' | ⟨hp', _⟩
    · subst hp'
      exact (mem_moveToEnd hhit q.1).mpr (hD2C q hq (me, cache) hmem hpq)
    · exact hD2C q hq p hp' hpq

theorem admitRequest_ok_shape (cap me : Nat) (st : StepSt)
    (req : ContentID) (st2 : StepSt)
    (h : admitRequest cap me st req = (st2, none)) :
    st2.topo.isl_graph = st.topo.isl_graph ∧
    st2.topo.isl_dist = st.topo.isl_dist ∧
    st2.sat.cacheSize = (if st.sat.cacheSize < cap then
      st.sat.cacheSize + 1 else st.sat.cacheSize) ∧
    ((st.sat.cacheSize < cap ∧
      st2.sat.cache = st.sat.cache ++ [req] ∧
      st2.topo.global_cache = st.topo.global_cache) ∨
    (¬ st.sat.cacheSize < cap ∧
      ∃ v rest holders, st.sat.cache = v :: rest ∧
        lookupL st.topo.global_cache v = some holders ∧ me ∈ holders ∧
        st2.sat.cache = rest ++ [req] ∧
        st2.topo.global_cache =
          setL st.topo.global_cache v (holders.erase me))) := by
  unfold admitRequest at h
  dsimp only at h
  split at h
  next hlt =>
    have h1 := congrArg Prod.fst h
    simp only at h1
    rw [← h1]
    exact ⟨rfl, rfl, by rw [if_pos hlt], Or.inl ⟨hlt, rfl, rfl⟩⟩
  next hge =>
    cases hcache : st.sat.cache with
    | nil =>
      rw [hcache] at h
      simp [lruStrategy] at h
    | cons v rest =>
      rw [hcache] at h
      simp only [lruStrategy] at h
      split at h
      · have := congrArg Prod.snd h
        simp at this
      · split at h
        next holders hgc hmem =>
          have h1 := congrArg Prod.fst h
          simp only at h1
          rw [← h1]
          exact ⟨rfl, rfl, by rw [if_neg hge], Or.inr ⟨hge,
            v, rest, holders, rfl, hgc, hmem, rfl, rfl⟩⟩
        next hmem =>
          have := congrArg Prod.snd h
          simp at this

theorem cdnInv_not_cached {gc : List (ContentID × List Nat)}
    {sats : List (Nat × List ContentID)} {req : ContentID}
    (hinv : CdnInv gc sats) (hempty : holdersOf gc req = []) :
    ∀ p ∈ sats, req ∉ p.2 := by
  intro p hp hc
  have := hinv.2.2.2.1 p hp req hc
  rw [hempty] at this
  simp at this

theorem cdnInv_uplink_insert {gc : List (ContentID × List Nat)}
    {sats : List (Nat × List ContentID)} {me : Nat}
    {cache : List ContentID} {req : ContentID} (hinv : CdnInv gc sats)
    (hmem : (me, cache) ∈ sats) (hmiss : req ∉ cache)
    (hempty : holdersOf gc req = []) :
    CdnInv (setL gc req [me]) (updateSat sats me (cache ++ [req])) := by
  have hNotIn := cdnInv_not_cached hinv hempty
  obtain ⟨hGc, hSat, hCNd, hC2D, hD2C⟩ := hinv
  have hGc1 : ((setL gc req [me]).map Prod.fst).Nodup :=
    setL_keys_nodup hGc req [me]
  have hold1self : holdersOf (setL gc req [me]) req = [me] :=
    holdersOf_setL_self gc req [me]
  have hold1ne : ∀ c, c ≠ req →
      holdersOf (setL gc req [me]) c = holdersOf gc c := fun c hc =>
    holdersOf_setL_ne gc [me] hc
  refine ⟨hGc1, by rw [updateSat_map_fst]; exact hSat, ?_, ?_, ?_⟩
  · intro p hp
    rcases mem_updateSat_fwd hp with hp' | ⟨hp', _⟩
    · rw [hp']
      refine List.Nodup.append (hCNd (me, cache) hmem)
        (List.nodup_singleton _) ?_
      intro x hx hx'
      rw [List.mem_singleton] at hx'
      exact hmiss (hx' ▸ hx)
    · exact hCNd p hp'
  · intro p hp c hc
    rcases mem_updateSat_fwd hp with hp' | ⟨hp', hne⟩
    · subst hp'
      rcases List.mem_append.mp hc with hc' | hc'
      · have hcne : c ≠ req := fun h => hmiss (h ▸ hc')
        rw [hold1ne c hcne]
        exact hC2D (me, cache) hmem c hc'
      · rw [List.mem_singleton] at hc'
        subst hc'
        rw [hold1self]
        simp
    · have hcne : c ≠ req := fun h => hNotIn p hp' (h ▸ hc)
      rw [hold1ne c hcne]
      exact hC2D p hp' c hc
  · intro q hq p hp hpq
    rcases (mem_setL hGc req [me]).mp hq with hq' | ⟨hq', hqne⟩
    · subst hq'
      rw [List.mem_singleton] at hpq
      rcases mem_updateSat_fwd hp with hp' | ⟨hp', hne⟩
      · subst hp'
        simp
      · exact absurd hpq hne
    · rcases mem_updateSat_fwd hp with hp' | ⟨hp', hne⟩
      · subst hp'
        exact List.mem_append_left _ (hD2C q hq' (me, cache) hmem hpq)
      · exact hD2C q hq' p hp' hpq

theorem cdnInv_uplink_evict {gc : List (ContentID × List Nat)}
    {sats : List (Nat × List ContentID)} {me : Nat} {v : ContentID}
    {rest : List ContentID} {req : ContentID} (hinv : CdnInv gc sats)
    (hmem : (me, v :: rest) ∈ sats) (hmiss : req ∉ v :: rest)
    (hempty : holdersOf gc req = []) :
    CdnInv (setL (setL gc req [me]) v ((holdersOf gc v).erase me))
      (updateSat sats me (rest ++ [req])) := by
  have hNotIn := cdnInv_not_cached hinv hempty
  obtain ⟨hGc, hSat, hCNd, hC2D, hD2C⟩ := hinv
  have hvne : v ≠ req := fun h => hmiss (h ▸ List.mem_cons_self _ _)
  have hreqrest : req ∉ rest := fun h =>
    hmiss (List.mem_cons_of_mem _ h)
  have hvrest : v ∉ rest := (List.nodup_cons.mp (hCNd _ hmem)).1
  have hrestNd : rest.Nodup := (List.nodup_cons.mp (hCNd _ hmem)).2
  have hcv : (holdersOf gc v).count me = 1 :=
    hC2D (me, v :: rest) hmem v (List.mem_cons_self _ _)
  have hmev : me ∈ holdersOf gc v := by
    rw [← List.count_pos_iff, hcv]
    omega
  have hlookv : lookupL gc v = some (holdersOf gc v) := by
    unfold holdersOf
    cases hl : lookupL gc v with
    | none =>
      unfold holdersOf at hcv
      rw [hl] at hcv
      simp at hcv
    | some l => rfl
  have hGc1 : ((setL gc req [me]).map Prod.fst).Nodup :=
    setL_keys_nodup hGc req [me]
  have hGc2 : ((setL (setL gc req [me]) v
      ((holdersOf gc v).erase me)).map Prod.fst).Nodup :=
    setL_keys_nodup hGc1 v _
  have hold2v : holdersOf (setL (setL gc req [me]) v
      ((holdersOf gc v).erase me)) v = (holdersOf gc v).erase me :=
    holdersOf_setL_self _ v _
  have hold2req : holdersOf (setL (setL gc req [me]) v
      ((holdersOf gc v).erase me)) req = [me] := by
    rw [holdersOf_setL_ne _ _ (fun h => hvne h.symm)]
    exact holdersOf_setL_self gc req [me]
  have hold2other : ∀ c, c ≠ v → c ≠ req →
      holdersOf (setL (setL gc req [me]) v
        ((holdersOf gc v).erase me)) c = holdersOf gc c := by
    intro c hcv' hcreq
    rw [holdersOf_setL_ne _ _ hcv', holdersOf_setL_ne _ _ hcreq]
  have hmeNotInErase : me ∉ (holdersOf gc v).erase me := by
    intro h
    have := List.count_pos_iff.mpr h
    rw [List.count_erase_self, hcv] at this
    omega
  refine ⟨hGc2, by rw [updateSat_map_fst]; exact hSat, ?_, ?_, ?_⟩
  · intro p hp
    rcases mem_updateSat_fwd hp with hp' | ⟨hp', _⟩
    · rw [hp']
      refine List.Nodup.append hrestNd (List.nodup_singleton _) ?_
      intro x hx hx'
      rw [List.mem_singleton] at hx'
      exact hreqrest (hx' ▸ hx)
    · exact hCNd p hp'
  · intro p hp c hc
    rcases mem_updateSat_fwd hp with hp' | ⟨hp', hne⟩
    · subst hp'
      rcases List.mem_append.mp hc with hc' | hc'
      · have hcne : c ≠ req := fun h => hreqrest (h ▸ hc')
        have hcnv : c ≠ v := fun h => hvrest (h ▸ hc')
        rw [hold2other c hcnv hcne]
        exact hC2D (me, v :: rest) hmem c (List.mem_cons_of_mem _ hc')
      · rw [List.mem_singleton] at hc'
        subst hc'
        rw [hold2req]
        simp
    · by_cases hcv' : c = v
      · subst hcv'
        rw [hold2v, List.count_erase_of_ne hne]
        exact hC2D p hp' c hc
      · have hcne : c ≠ req := fun h => hNotIn p hp' (h ▸ hc)
        rw [hold2other c hcv' hcne]
        exact hC2D p hp' c hc
  · intro q hq p hp hpq
    rcases (mem_setL hGc1 v _).mp hq with hq' | ⟨hq', hqnv⟩
    · subst hq'
      rcases mem_updateSat_fwd hp with hp' | ⟨hp', hne⟩
      · subst hp'
        exact absurd hpq hmeNotInErase
      · have hph : p.1 ∈ holdersOf gc v := List.mem_of_mem_erase hpq
        exact hD2C (v, holdersOf gc v) (lookupL_mem hlookv) p hp' hph
    · rcases (mem_setL hGc req [me]).mp hq' with hq'' | ⟨hq'', hqnr⟩
      · subst hq''
        rw [List.mem_singleton] at hpq
        rcases mem_updateSat_fwd hp with hp' | ⟨hp', hne⟩
        · subst hp'
          simp
        · exact absurd hpq hne
      · rcases mem_updateSat_fwd hp with hp' | ⟨hp', hne⟩
        · subst hp'
          have hqm := hD2C q hq'' (me, v :: rest) hmem hpq
          rcases List.mem_cons.mp hqm with h' | h'
          · exact absurd h' hqnv
          · exact List.mem_append_left _ h'
        · exact hD2C q hq'' p hp' hpq

theorem admitRequest_err_cases (cap me : Nat) (st : StepSt)
    (req : ContentID) (st2 : StepSt) (e : PyErr)
    (h : admitRequest cap me st req = (st2, some e)) :
    ¬ st.sat.cacheSize < cap ∧
    (st.sat.cache = [] ∨
     ∃ v rest, st.sat.cache = v :: rest ∧
       (lookupL st.topo.global_cache v = none ∨
        ∃ holders, lookupL st.topo.global_cache v = some holders ∧
          me ∉ holders)) := by
  unfold admitRequest at h
  dsimp only at h
  split at h
  next hlt =>
    have := congrArg Prod.snd h
    simp at this
  next hge =>
    refine ⟨hge, ?_⟩
    cases hcache : st.sat.cache with
    | nil => exact Or.inl rfl
    | cons v rest =>
      rw [hcache] at h
      simp only [lruStrategy] at h
      refine Or.inr ⟨v, rest, rfl, ?_⟩
      split at h
      next hgc => exact Or.inl hgc
      next holders hgc =>
        split at h
        next hmem =>
          have := congrArg Prod.snd h
          simp at this
        next hmem => exact Or.inr ⟨holders, hgc, hmem⟩

theorem processRequest_inv (cap me : Nat) (st : StepSt) (req : ContentID)
    (sats : List (Nat × List ContentID)) (hcap : 1 ≤ cap)
    (hmem : (me, st.sat.cache) ∈ sats)
    (hsz : st.sat.cacheSize = st.sat.cache.length)
    (hinv : CdnInv st.topo.global_cache sats) :
    CdnInv (processRequest cap me st req).1.topo.global_cache
      (updateSat sats me (processRequest cap me st req).1.sat.cache) ∧
    ((processRequest cap me st req).2 = none →
      (processRequest cap me st req).1.sat.cacheSize =
        (processRequest cap me st req).1.sat.cache.length) := by
  unfold processRequest
  dsimp only
  split
  next hhit =>
    refine ⟨cdnInv_hit hinv hmem req hhit, ?_⟩
    intro _
    simp only
    have hlen : (moveToEnd st.sat.cache req).length =
        st.sat.cache.length := by
      unfold moveToEnd
      rw [List.length_append, List.length_singleton,
        List.length_erase_of_mem hhit]
      have : 0 < st.sat.cache.length :=
        List.length_pos.mpr (List.ne_nil_of_mem hhit)
      omega
    rw [hlen]
    exact hsz
  next hhit =>
    split
    next hcond =>
      have hempty : holdersOf st.topo.global_cache req = [] :=
        holdersOf_empty_of_cond hcond
      split
      next st3 heq =>
        obtain ⟨hgr, hds, hsize, hshape⟩ :=
          admitRequest_ok_shape cap me _ req st3 heq
        simp only at hsize
        rcases hshape with ⟨hlt, hcache3, hgc3⟩ |
          ⟨hge, v, rest, holders, hcachev, hlookv, hmemh, hcache3, hgc3⟩
        · simp only at hlt hcache3 hgc3
          constructor
          · simp only
            rw [hgc3, hcache3]
            exact cdnInv_uplink_insert hinv hmem hhit hempty
          · intro _
            simp only
            rw [hsize, if_pos hlt, hcache3]
            rw [List.length_append, List.length_singleton]
            omega
        · simp only at hge hcachev hlookv hcache3 hgc3
          have hvne : v ≠ req := by
            intro hcontra
            exact hhit (by rw [hcachev, hcontra]; exact List.mem_cons_self _ _)
          have hlookv' : lookupL st.topo.global_cache v = some holders := by
            rw [lookupL_setL_ne st.topo.global_cache [me]
              hvne] at hlookv
            exact hlookv
          have hhold : holdersOf st.topo.global_cache v = holders :=
            holdersOf_mem_of_lookup hlookv'
          have hmem' : (me, v :: rest) ∈ sats := by
            rw [← hcachev]
            exact hmem
          have hmiss' : req ∉ v :: rest := by
            rw [← hcachev]
            exact hhit
          constructor
          · simp only
            rw [hgc3, hcache3, ← hhold]
            exact cdnInv_uplink_evict hinv hmem' hmiss' hempty
          · intro _
            simp only
            rw [hsize, if_neg hge, hcache3]
            rw [List.length_append, List.length_singleton]
            rw [hsz, hcachev]
            simp
      next st3 e heq =>
        obtain ⟨hge, hcases⟩ := admitRequest_err_cases cap me _ req st3 e heq
        simp only at hge hcases
        exfalso
        rcases hcases with hnil | ⟨v, rest, hcachev, hrest⟩
        · rw [hnil] at hsz
          simp at hsz
          omega
        · have hvmem : v ∈ st.sat.cache := by
            rw [hcachev]
            exact List.mem_cons_self _ _
          have hcv : (holdersOf st.topo.global_cache v).count me = 1 :=
            hinv.2.2.2.1 (me, st.sat.cache) hmem v hvmem
          have hvne : v ≠ req := by
            intro hcontra
            exact hhit (hcontra ▸ hvmem)
          rcases hrest with hnone | ⟨holders, hsome, hnm⟩
          · rw [lookupL_setL_ne st.topo.global_cache [me] hvne] at hnone
            unfold holdersOf at hcv
            rw [hnone] at hcv
            simp at hcv
          · rw [lookupL_setL_ne st.topo.global_cache [me] hvne] at hsome
            rw [holdersOf_mem_of_lookup hsome] at hcv
            exact hnm (by rw [← List.count_pos_iff, hcv]; omega)
    next hcond =>
      split
      next st3 heq =>
        have hs := (remoteHit_state_frame cap me st req
          ((lookupL st.topo.global_cache req).getD [])
          ((((lookupL st.topo.global_cache req).getD
            []).getLast?).getD me)).1
        rw [heq] at hs
        simp at hs
      next st3 e heq =>
        have hframe := remoteHit_state_frame cap me st req
          ((lookupL st.topo.global_cache req).getD [])
          ((((lookupL st.topo.global_cache req).getD
            []).getLast?).getD me)
        rw [heq] at hframe
        obtain ⟨-, hsat3, hgc3, -⟩ := hframe
        simp only at hsat3 hgc3
        constructor
        · simp only
          rw [hgc3, hsat3]
          rw [updateSat_self hinv.2.1 hmem]
          exact hinv
        · intro hcontra
          simp at hcontra

theorem handleRequestsLoop_inv (cap me : Nat) (hcap : 1 ≤ cap) :
    ∀ (reqs : List ContentID) (st : StepSt)
      (sats : List (Nat × List ContentID)),
    (me, st.sat.cache) ∈ sats →
    st.sat.cacheSize = st.sat.cache.length →
    CdnInv st.topo.global_cache sats →
    CdnInv (handleRequestsLoop cap me reqs st).1.topo.global_cache
      (updateSat sats me
        (handleRequestsLoop cap me reqs st).1.sat.cache) := by
  intro reqs
  induction reqs with
  | nil =>
    intro st sats hmem hsz hinv
    simp only [handleRequestsLoop]
    rw [updateSat_self hinv.2.1 hmem]
    exact hinv
  | cons r rs ih =>
    intro st sats hmem hsz hinv
    simp only [handleRequestsLoop]
    rcases hp : processRequest cap me st r with ⟨st1, e1⟩
    obtain ⟨hinv1, hsz1⟩ := processRequest_inv cap me st r sats hcap
      hmem hsz hinv
    rw [hp] at hinv1 hsz1
    simp only at hinv1 hsz1
    cases e1 with
    | some e => exact hinv1
    | none =>
      have hmem1 : (me, st1.sat.cache) ∈
          updateSat sats me st1.sat.cache := mem_updateSat_self _ hmem
      have hrec := ih st1 (updateSat sats me st1.sat.cache) hmem1
        (hsz1 rfl) hinv1
      rw [updateSat_updateSat] at hrec
      exact hrec

theorem cdnInv_iff {gc : List (ContentID × List Nat)}
    {sats : List (Nat × List ContentID)} (hinv : CdnInv gc sats) :
    ∀ p ∈ sats, ∀ c, c ∈ p.2 ↔ p.1 ∈ holdersOf gc c := by
  intro p hp c
  constructor
  · intro hc
    have := hinv.2.2.2.1 p hp c hc
    rw [← List.count_pos_iff, this]
    omega
  · intro hh
    have hlook : lookupL gc c = some (holdersOf gc c) := by
      unfold holdersOf at hh ⊢
      cases hl : lookupL gc c with
      | none =>
        rw [hl] at hh
        simp at hh
      | some l => rfl
    exact hinv.2.2.2.2 (c, holdersOf gc c) (lookupL_mem hlook) p hp hh

/-- **C1** counterexample, two ways the claim as stated fails.
First, the claim says a remote hit appends the requesting satellite as
a new holder; on the concrete remote hit of `"v"` on satellite 0
(holder list `[1]`) the batch instead raises `TypeError` and the
holder list is still `[1]` — 0 was never appended (and `"v"` was never
cached locally, so the cache ⇔ directory biconditional itself is
untouched).  Second, the claim says the biconditional is preserved by
every path, completed or aborted, but at capacity 0 an aborted uplink
admission breaks it: satellite 5 with an empty cache requesting `"a"`
on an empty directory first registers itself as holder of `"a"`
(modelcdnprovider.py line 201), then the eviction of the empty cache
raises `KeyError` before the local insert at line 240 — the final
state has `"a" → [5]` in the directory while `"a"` is not in the
cache, so the invariant theorem's `1 ≤ capacity` hypothesis is
necessary. -/
theorem cache_directory_counterexample :
    ((check_local_cache_only 2 0 { cache := [], cacheSize := 0 }
      { global_cache := [("v", [1])], isl_graph := gEx, isl_dist := [] }
      ["v"]).2 = some .typeError ∧
    holdersOf (check_local_cache_only 2 0 { cache := [], cacheSize := 0 }
      { global_cache := [("v", [1])], isl_graph := gEx, isl_dist := [] }
      ["v"]).1.topo.global_cache "v" = [1] ∧
    ("v" : ContentID) ∉ (check_local_cache_only 2 0
      { cache := [], cacheSize := 0 }
      { global_cache := [("v", [1])], isl_graph := gEx, isl_dist := [] }
      ["v"]).1.sat.cache) ∧
    ((check_local_cache_only 0 5 { cache := [], cacheSize := 0 }
      { global_cache := [], isl_graph := [], isl_dist := [] }
      ["a"]).2 = some .keyError ∧
    holdersOf (check_local_cache_only 0 5 { cache := [], cacheSize := 0 }
      { global_cache := [], isl_graph := [], isl_dist := [] }
      ["a"]).1.topo.global_cache "a" = [5] ∧
    ("a" : ContentID) ∉ (check_local_cache_only 0 5
      { cache := [], cacheSize := 0 }
      { global_cache := [], isl_graph := [], isl_dist := [] }
      ["a"]).1.sat.cache) := by
  exact ⟨⟨rfl, rfl, by decide⟩, ⟨rfl, rfl, by decide⟩⟩

/-- **C1** (amended) — cache/directory consistency invariant.  For a
family of satellites with unique IDs and duplicate-free caches
satisfying the invariant "s's cache contains c iff s is (exactly once)
in the directory's holder list for c", and a cache capacity of at
least 1, every `HandleRequests` batch on any one satellite preserves
the invariant — whether the batch completes or aborts on an exception.
The preserving paths are: local hit (no directory change), uplink miss
(registers the satellite as first holder before admission), eviction
(removes the satellite from the evicted key's holder list), and remote
hit (raises before any cache or directory mutation, leaving the
invariant untouched).  The `1 ≤ cap` hypothesis is necessary: at
capacity 0 an aborted admission writes the directory and then raises
out of the eviction of the empty cache before the local insert,
breaking the biconditional (see the counterexample).  The
biconditional itself is restated in the second conjunct. -/
theorem cache_directory_invariant (cap me : Nat) (sat : SatState)
    (topo : Topo) (requests : List ContentID)
    (sats : List (Nat × List ContentID)) (hcap : 1 ≤ cap)
    (hmem : (me, sat.cache) ∈ sats)
    (hsz : sat.cacheSize = sat.cache.length)
    (hinv : CdnInv topo.global_cache sats) :
    CdnInv
      (check_local_cache_only cap me sat topo requests).1.topo.global_cache
      (updateSat sats me
        (check_local_cache_only cap me sat topo requests).1.sat.cache) ∧
    (∀ p ∈ updateSat sats me
        (check_local_cache_only cap me sat topo requests).1.sat.cache,
      ∀ c, c ∈ p.2 ↔ p.1 ∈ holdersOf
        (check_local_cache_only cap me sat topo
          requests).1.topo.global_cache c) := by
  have hloop := handleRequestsLoop_inv cap me hcap requests
    { sat := sat, topo := topo, downlink := 0, uplink := 0,
      isl := [0, 0, 0, 0], hits := [] } sats hmem hsz hinv
  have hmain : CdnInv
      (check_local_cache_only cap me sat topo
        requests).1.topo.global_cache
      (updateSat sats me
        (check_local_cache_only cap me sat topo
          requests).1.sat.cache) := by
    unfold check_local_cache_only
    dsimp only
    split
    next stf e heq =>
      rw [heq] at hloop
      exact hloop
    next stf heq =>
      rw [heq] at hloop
      split
      · split
        · exact hloop
        · exact hloop
      · exact hloop
  exact ⟨hmain, cdnInv_iff hmain⟩

/-- Witness for **C1** (amended): two satellites on `gEx`, satellite 0
caching `["a", "b"]`, satellite 1 caching `["v"]`, consistent
directory; a batch `["a", "x"]` on satellite 0 (a hit plus an uplink
miss with eviction at capacity 2) preserves the invariant. -/
theorem cache_directory_invariant_witness :
    CdnInv [("a", [0]), ("b", [0]), ("v", [1])]
      [(0, ["a", "b"]), (1, ["v"])] ∧
    CdnInv
      (check_local_cache_only 2 0 { cache := ["a", "b"], cacheSize := 2 }
        { global_cache := [("a", [0]), ("b", [0]), ("v", [1])],
          isl_graph := gEx, isl_dist := [] }
        ["a", "x"]).1.topo.global_cache
      (updateSat [(0, ["a", "b"]), (1, ["v"])] 0
        (check_local_cache_only 2 0 { cache := ["a", "b"], cacheSize := 2 }
          { global_cache := [("a", [0]), ("b", [0]), ("v", [1])],
            isl_graph := gEx, isl_dist := [] }
          ["a", "x"]).1.sat.cache) := by
  refine ⟨by decide, ?_⟩
  exact (cache_directory_invariant 2 0
    { cache := ["a", "b"], cacheSize := 2 }
    { global_cache := [("a", [0]), ("b", [0]), ("v", [1])],
      isl_graph := gEx, isl_dist := [] }
    ["a", "x"] [(0, ["a", "b"]), (1, ["v"])]
    (by decide) (by decide) rfl (by decide)).1

/-! ## Scheduler (C8) -/

/-- **C8** counterexample.  The claim says the scheduler returns
`min(N, |visible|)` satellites for **every** requested count `N`; at
`N = 0` with two visible satellites (elevations 30° and 50°) the
code's negative-index slice `[-min(0, 2):] = [-0:] = [0:]` returns
**all** visible satellites, so the result has length 2, not
`min(0, 2) = 0`. -/
theorem scheduler_zero_counterexample :
    schduleLargestElevation
      ([⟨1, .SAT, some 30⟩, ⟨2, .SAT, some 50⟩] : List (SimNode ℚ))
      id 0 = some [1, 2] ∧
    ([1, 2] : List Nat).length ≠ min 0 2 :=
  ⟨rfl, by decide⟩

/-- **C8** (amended) — largest-elevation scheduling.  When no
satellite is visible (no SAT node has a position, or none reaches the
25° default minimum elevation), the scheduler returns the
out-of-service result and the requester dispatches to no satellite.
Otherwise, for `N ≥ 1` it returns exactly `min(N, |visible|)` of the
visible satellites — while for `N = 0` the negative-index slice
`[-0:]` makes it return **all** of them — ordered by elevation
ascending (highest last), and top-heavy: every unselected visible
satellite's elevation is at most every selected one's. -/
theorem scheduler_largest_elevation {Pos : Type}
    (nodes : List (SimNode Pos)) (elevFn : Pos → ℚ) (N : Nat) :
    ((get_view_up nodes elevFn [ENodeType.SAT] 25 = none ∨
      get_view_up nodes elevFn [ENodeType.SAT] 25 = some []) →
      schduleLargestElevation nodes elevFn N = none ∧
      send_requests_targets nodes elevFn N = []) ∧
    (∀ views, get_view_up nodes elevFn [ENodeType.SAT] 25 = some views →
      views ≠ [] →
      ∃ sel other : List (Nat × ℚ),
        schduleLargestElevation nodes elevFn N =
          some (sel.map Prod.fst) ∧
        sel.length = (if N = 0 then views.length
          else min N views.length) ∧
        List.Sorted elevLE sel ∧
        (other ++ sel).Perm views ∧
        ∀ q ∈ other, ∀ p ∈ sel, q.2 ≤ p.2) := by
  constructor
  · intro h
    have hsched : schduleLargestElevation nodes elevFn N = none := by
      unfold schduleLargestElevation
      rcases h with h | h
      · rw [h]
      · rw [h]
        simp
    refine ⟨hsched, ?_⟩
    unfold send_requests_targets
    rw [hsched]
  · intro views hv hne
    have hlen0 : ¬ views.length = 0 := by
      simpa [List.length_eq_zero] using hne
    have hsortlen : (views.insertionSort elevLE).length = views.length :=
      (List.perm_insertionSort elevLE views).length_eq
    by_cases hN : N = 0
    · subst hN
      refine ⟨views.insertionSort elevLE, [], ?_, ?_, ?_, ?_, ?_⟩
      · unfold schduleLargestElevation
        rw [hv]
        dsimp only
        rw [if_neg hlen0]
        rw [if_pos (Nat.zero_min views.length)]
      · rw [hsortlen]
        simp
      · exact List.sorted_insertionSort elevLE views
      · simpa using List.perm_insertionSort elevLE views
      · intro q hq
        simp at hq
    · have hkpos : ¬ min N views.length = 0 := by
        have h1 : 0 < N := Nat.pos_of_ne_zero hN
        have h2 : 0 < views.length := Nat.pos_of_ne_zero hlen0
        omega
      have hkle : min N views.length ≤
          (views.insertionSort elevLE).length := by
        rw [hsortlen]
        exact Nat.min_le_right _ _
      refine ⟨(views.insertionSort elevLE).drop
          ((views.insertionSort elevLE).length - min N views.length),
        (views.insertionSort elevLE).take
          ((views.insertionSort elevLE).length - min N views.length),
        ?_, ?_, ?_, ?_, ?_⟩
      · unfold schduleLargestElevation
        rw [hv]
        dsimp only
        rw [if_neg hlen0]
        rw [if_neg hkpos]
      · rw [if_neg hN, List.length_drop]
        omega
      · exact (List.sorted_insertionSort elevLE views).sublist
          (List.drop_sublist _ _)
      · rw [List.take_append_drop]
        exact List.perm_insertionSort elevLE views
      · have hs := List.sorted_insertionSort elevLE views
        rw [← List.take_append_drop
          ((views.insertionSort elevLE).length - min N views.length)
          (views.insertionSort elevLE)] at hs
        exact (List.pairwise_append.mp hs).2.2

/-- Witness for **C8** (amended): a concrete constellation with
elevations 30°, 50°, 40°, 10° (and a non-SAT node) selects `[3, 2]`
(40° then 50°, ascending) for `N = 2`; and a lone satellite at
elevation 10° (below the 25° minimum) leaves the requester out of
service with no dispatch. -/
theorem scheduler_largest_elevation_witness :
    (get_view_up ([⟨1, .SAT, some 10⟩] : List (SimNode ℚ)) id
      [ENodeType.SAT] 25 = some [] ∧
     schduleLargestElevation ([⟨1, .SAT, some 10⟩] : List (SimNode ℚ))
       id 2 = none ∧
     send_requests_targets ([⟨1, .SAT, some 10⟩] : List (SimNode ℚ))
       id 2 = []) ∧
    (∃ sel other : List (Nat × ℚ),
      schduleLargestElevation
        ([⟨1, .SAT, some 30⟩, ⟨2, .SAT, some 50⟩, ⟨3, .SAT, some 40⟩,
          ⟨4, .SAT, some 10⟩, ⟨5, .GS, some 90⟩] : List (SimNode ℚ)) id 2 =
        some (sel.map Prod.fst) ∧
      sel.length = (if (2 : Nat) = 0 then ([(1, 30), (2, 50), (3, 40)] :
          List (Nat × ℚ)).length
        else min 2 ([(1, 30), (2, 50), (3, 40)] :
          List (Nat × ℚ)).length) ∧
      List.Sorted elevLE sel ∧
      (other ++ sel).Perm [(1, 30), (2, 50), (3, 40)] ∧
      ∀ q ∈ other, ∀ p ∈ sel, q.2 ≤ p.2) := by
  constructor
  · have h := (scheduler_largest_elevation
      ([⟨1, .SAT, some 10⟩] : List (SimNode ℚ)) id 2).1
      (Or.inr (by decide))
    exact ⟨by decide, h.1, h.2⟩
  · exact (scheduler_largest_elevation
      ([⟨1, .SAT, some 30⟩, ⟨2, .SAT, some 50⟩, ⟨3, .SAT, some 40⟩,
        ⟨4, .SAT, some 10⟩, ⟨5, .GS, some 90⟩] : List (SimNode ℚ)) id 2).2
      [(1, 30), (2, 50), (3, 40)] (by decide) (by decide)

end CosmicBeats
